import Mathlib

/-!
# The lexer of `laboratorna.cpp`

A shallow embedding of the Pascal-like lexer (`class Lexer`) and theorems about it.

Modelling choices.

* A `std::string` is a `List Char`; `char` values are Lean characters.  The program never calls
  `setlocale`, so the `<cctype>` classifiers are those of the "C" locale: they accept ASCII
  characters only, and every character outside ASCII fails all of them.
* `source[i]` is `charAt source i`: the `i`-th character, and `'\0'` at `i = length` as
  `std::string::operator[]` specifies (the model gives `'\0'` past the end as well).  A second
  embedding, `getNextTokenChecked`, fails on any read at or past the end; `getNextTokenChecked_eq`
  shows that it never fails, so no such read is made.
* The member `source` is never assigned after construction, so it is a parameter of every member
  function; the member `position` is the only state and is passed in and returned explicitly.
* Every `while` loop of the lexer has the shape
  `while (position < source.length() && cond) { acc += source[position++]; }`.  It is modelled by
  `scanWhile`, a recursion on a fuel argument that is always instantiated with the number of
  characters left in the buffer, which the loop cannot exhaust: `scanWhile_spec` shows that the
  loop ends with its condition false.
-/

namespace Laboratorna

/-! ## Data model -/

/-- The enumeration `TokenType`. -/
inductive TokenType where
  | KEYWORD | IDENTIFIER | NUMBER | HEX_NUMBER | FLOAT | STRING | CHAR | PREPROCESSOR | COMMENT
  | OPERATOR | DELIMITER | UNKNOWN | ERROR | END_OF_FILE
  deriving DecidableEq, Repr

/-- The struct `Token`. -/
structure Token where
  type : TokenType
  value : List Char
  deriving DecidableEq, Repr

/-- The set `keywords`. -/
def keywords : List (List Char) :=
  ["program".toList, "begin".toList, "end".toList, "var".toList, "integer".toList,
   "real".toList, "if".toList, "then".toList, "else".toList, "while".toList, "do".toList,
   "for".toList, "to".toList]

/-- The set `operators`. -/
def operators : List Char :=
  ['+', '-', '*', '/', ':', '=', '<', '>', '.', '%', '^']

/-- The set `delimiters`. -/
def delimiters : List Char :=
  ['(', ')', ';', ',', '[', ']', '{', '}']

/-! ## Character classification (`<cctype>`, "C" locale) -/

/-- `isspace`: space, `\t`, `\n`, `\v`, `\f`, `\r`. -/
def isspace (c : Char) : Bool :=
  c.toNat == 32 || (decide (9 ≤ c.toNat) && decide (c.toNat ≤ 13))

/-- `isdigit`: `0`..`9`. -/
def isdigit (c : Char) : Bool :=
  decide (48 ≤ c.toNat) && decide (c.toNat ≤ 57)

/-- `isalpha`: `A`..`Z` and `a`..`z`. -/
def isalpha (c : Char) : Bool :=
  (decide (65 ≤ c.toNat) && decide (c.toNat ≤ 90)) ||
    (decide (97 ≤ c.toNat) && decide (c.toNat ≤ 122))

/-- `isalnum`: `isalpha` or `isdigit`. -/
def isalnum (c : Char) : Bool :=
  isalpha c || isdigit c

/-- `isxdigit`: `0`..`9`, `A`..`F`, `a`..`f`. -/
def isxdigit (c : Char) : Bool :=
  isdigit c || (decide (65 ≤ c.toNat) && decide (c.toNat ≤ 70)) ||
    (decide (97 ≤ c.toNat) && decide (c.toNat ≤ 102))

/-- The function `isHexNumber`: no character of `str` fails `isxdigit`. -/
def isHexNumber (str : List Char) : Bool :=
  str.all isxdigit

/-! ## The lexer -/

/-- The read `source[i]`. -/
def charAt (source : List Char) (i : Nat) : Char :=
  source.getD i (Char.ofNat 0)

/-- The loop `while (position < source.length() && cond) { acc += source[position++]; }`,
where `cond` may inspect the buffer at and after the current position.  Returns the final
position and the accumulated string. -/
def scanWhile (source : List Char) (cond : Nat → Bool) :
    Nat → Nat → List Char → Nat × List Char
  | 0, position, acc => (position, acc)
  | fuel + 1, position, acc =>
    if decide (position < source.length) && cond position then
      scanWhile source cond fuel (position + 1) (acc ++ [charAt source position])
    else
      (position, acc)

/-- The method `Lexer::skipWhitespace`: returns the new position. -/
def skipWhitespace (source : List Char) (position : Nat) : Nat :=
  (scanWhile source (fun i => isspace (charAt source i)) (source.length - position)
    position []).1

/-- The method `Lexer::peek`. -/
def peek (source : List Char) (position : Nat) : Char :=
  if position + 1 < source.length then charAt source (position + 1) else Char.ofNat 0

/-- The method `Lexer::handleComment`. -/
def handleComment (source : List Char) (position : Nat) : Token × Nat :=
  if charAt source position == '{' then
    let r := scanWhile source (fun i => charAt source i != '}')
      (source.length - (position + 1)) (position + 1) [charAt source position]
    if r.1 < source.length then
      (⟨TokenType.COMMENT, r.2 ++ [charAt source r.1]⟩, r.1 + 1)
    else
      (⟨TokenType.COMMENT, r.2⟩, r.1)
  else if charAt source position == '(' && peek source position == '*' then
    let r := scanWhile source (fun i => !(charAt source i == '*' && peek source i == ')'))
      (source.length - (position + 2)) (position + 2)
      [charAt source position, charAt source (position + 1)]
    if r.1 < source.length then
      (⟨TokenType.COMMENT, r.2 ++ [charAt source r.1, charAt source (r.1 + 1)]⟩, r.1 + 2)
    else
      (⟨TokenType.COMMENT, r.2⟩, r.1)
  else
    (⟨TokenType.ERROR, "Unterminated comment".toList⟩, position)

/-- The method `Lexer::handlePreprocessor`. -/
def handlePreprocessor (source : List Char) (position : Nat) : Token × Nat :=
  let r := scanWhile source (fun i => !isspace (charAt source i))
    (source.length - position) position []
  (⟨TokenType.PREPROCESSOR, r.2⟩, r.1)

/-- The method `Lexer::handleStringOrChar`. -/
def handleStringOrChar (source : List Char) (position : Nat) : Token × Nat :=
  let quoteType := charAt source position
  let r := scanWhile source (fun i => charAt source i != quoteType)
    (source.length - (position + 1)) (position + 1) [quoteType]
  if r.1 < source.length then
    if quoteType == Char.ofNat 39 then
      (⟨TokenType.CHAR, r.2 ++ [charAt source r.1]⟩, r.1 + 1)
    else
      (⟨TokenType.STRING, r.2 ++ [charAt source r.1]⟩, r.1 + 1)
  else
    (⟨TokenType.ERROR, "Unterminated string or character literal".toList⟩, r.1)

/-- The method `Lexer::handleNumber`. -/
def handleNumber (source : List Char) (position : Nat) : Token × Nat :=
  if charAt source position == '$' then
    let r := scanWhile source (fun i => isxdigit (charAt source i))
      (source.length - (position + 1)) (position + 1) [charAt source position]
    if isHexNumber (r.2.drop 1) then
      (⟨TokenType.HEX_NUMBER, r.2⟩, r.1)
    else
      (⟨TokenType.ERROR, "Invalid hexadecimal number".toList⟩, r.1)
  else
    let r := scanWhile source (fun i => isdigit (charAt source i) || charAt source i == '.')
      (source.length - position) position []
    if r.2.contains '.' then
      (⟨TokenType.FLOAT, r.2⟩, r.1)
    else
      (⟨TokenType.NUMBER, r.2⟩, r.1)

/-- The method `Lexer::handleIdentifierOrKeyword`. -/
def handleIdentifierOrKeyword (source : List Char) (position : Nat) : Token × Nat :=
  let r := scanWhile source (fun i => isalnum (charAt source i) || charAt source i == '_')
    (source.length - position) position []
  if keywords.contains r.2 then
    (⟨TokenType.KEYWORD, r.2⟩, r.1)
  else
    (⟨TokenType.IDENTIFIER, r.2⟩, r.1)

/-- The method `Lexer::getNextToken`: from the cursor `position`, returns the token and the
cursor after the call. -/
def getNextToken (source : List Char) (position : Nat) : Token × Nat :=
  let position := skipWhitespace source position
  if position ≥ source.length then
    (⟨TokenType.END_OF_FILE, []⟩, position)
  else
    let currentChar := charAt source position
    if currentChar == '{' || (currentChar == '(' && peek source position == '*') then
      handleComment source position
    else if currentChar == '#' then
      handlePreprocessor source position
    else if currentChar == Char.ofNat 39 || currentChar == Char.ofNat 34 then
      handleStringOrChar source position
    else if isdigit currentChar || currentChar == '$' then
      handleNumber source position
    else if isalpha currentChar || currentChar == '_' then
      handleIdentifierOrKeyword source position
    else if operators.contains currentChar then
      (⟨TokenType.OPERATOR, [currentChar]⟩, position + 1)
    else if delimiters.contains currentChar then
      (⟨TokenType.DELIMITER, [currentChar]⟩, position + 1)
    else
      (⟨TokenType.ERROR, "Unknown character: ".toList ++ [currentChar]⟩, position + 1)

/-! ## Sequences of calls -/

/-- The cursor after `n` successive calls of `getNextToken`, the first one made at `position`. -/
def cursorAfter (source : List Char) (position : Nat) : Nat → Nat
  | 0 => position
  | n + 1 => (getNextToken source (cursorAfter source position n)).2

/-- The token returned by call number `n` (counting from `0`) of a sequence of calls of
`getNextToken` that starts at `position`. -/
def nthToken (source : List Char) (position : Nat) (n : Nat) : Token :=
  (getNextToken source (cursorAfter source position n)).1

/-- The longest run of characters passing the test `pred` that starts at `position`. -/
def maximalRun (pred : Char → Bool) (source : List Char) (position : Nat) : List Char :=
  (source.drop position).takeWhile pred

/-- The characters of `source` at positions `i` with `a ≤ i < b`. -/
def slice (source : List Char) (a b : Nat) : List Char :=
  (source.drop a).take (b - a)

/-- The tokens seen by the loop of `main`: starting at `position`, call `getNextToken` until it
returns `END_OF_FILE` and collect the tokens returned before that, in order.  The loop is a recursion on
fuel; `source.length + 1` is always enough, since every such token consumes a character. -/
def tokenize (source : List Char) : Nat → Nat → List Token
  | 0, _ => []
  | fuel + 1, position =>
    let r := getNextToken source position
    if r.1.type = TokenType.END_OF_FILE then []
    else r.1 :: tokenize source fuel r.2

/-- The text assembled along the same loop from what each call consumes: the run of
whitespace skipped by `skipWhitespace`, followed by the text of the token returned, up to the
call that returns `END_OF_FILE` (whose token has no text). -/
def reconstruct (source : List Char) : Nat → Nat → List Char
  | 0, _ => []
  | fuel + 1, position =>
    let r := getNextToken source position
    let skipped := slice source position (skipWhitespace source position)
    if r.1.type = TokenType.END_OF_FILE then skipped
    else skipped ++ r.1.value ++ reconstruct source fuel r.2

/-- The function `tokenTypeToString` (its `default` branch is not reachable from a value of the
enumeration). -/
def tokenTypeToString : TokenType → List Char
  | TokenType.KEYWORD => "KEYWORD".toList
  | TokenType.IDENTIFIER => "IDENTIFIER".toList
  | TokenType.NUMBER => "NUMBER".toList
  | TokenType.HEX_NUMBER => "HEX_NUMBER".toList
  | TokenType.FLOAT => "FLOAT".toList
  | TokenType.STRING => "STRING".toList
  | TokenType.CHAR => "CHAR".toList
  | TokenType.PREPROCESSOR => "PREPROCESSOR".toList
  | TokenType.COMMENT => "COMMENT".toList
  | TokenType.OPERATOR => "OPERATOR".toList
  | TokenType.DELIMITER => "DELIMITER".toList
  | TokenType.UNKNOWN => "UNKNOWN".toList
  | TokenType.ERROR => "ERROR".toList
  | TokenType.END_OF_FILE => "EOF".toList

/-- The output loop of `main`,
`while (token.type != END_OF_FILE) { outputFile << ... << std::endl; token = lexer.getNextToken(); }`,
with `token` the current token, `position` the cursor of the lexer and `output` the text
written to the file so far; returns the text written when the loop ends. -/
def outputLoop (source : List Char) : Nat → Token → Nat → List Char → List Char
  | 0, _, _, output => output
  | fuel + 1, token, position, output =>
    if token.type ≠ TokenType.END_OF_FILE then
      let r := getNextToken source position
      outputLoop source fuel r.1 r.2
        (output ++ "Token: ".toList ++ token.value ++ ", Type: ".toList ++
          tokenTypeToString token.type ++ [Char.ofNat 10])
    else
      output

/-- The text `main` writes to `output.txt` for the buffer `source`: the first call of
`getNextToken` at cursor `0`, then the output loop.  The loop runs at most once per character
of the buffer, so the fuel `source.length + 1` is not exhausted. -/
def mainOutput (source : List Char) : List Char :=
  let r := getNextToken source 0
  outputLoop source (source.length + 1) r.1 r.2 []

/-! ## The lexer with every buffer read checked

A second embedding of the same member functions, in which each read `source[i]` goes through
`readAt` and the whole call yields `none` as soon as one read has `i ≥ source.length()`.
Conditions joined by `&&` and `||` are evaluated left to right and short-circuit, as in C++, so
that a read on the right is only made when the left allows it. -/

/-- The read `source[i]`, defined only for `i < source.length()`. -/
def readAt (source : List Char) (i : Nat) : Option Char :=
  source[i]?

/-- The expression `a && b`, where `b` is evaluated only when `a` holds. -/
def shortAnd (a : Bool) (b : Option Bool) : Option Bool :=
  if a then b else some false

/-- The expression `a || b`, where `b` is evaluated only when `a` fails. -/
def shortOr (a : Bool) (b : Option Bool) : Option Bool :=
  if a then some true else b

/-- The loop `while (position < source.length() && cond) { acc += source[position++]; }` with
checked reads: `cond` is evaluated only when `position < source.length()`. -/
def scanWhileChecked (source : List Char) (cond : Nat → Option Bool) :
    Nat → Nat → List Char → Option (Nat × List Char)
  | 0, position, acc => some (position, acc)
  | fuel + 1, position, acc =>
    if position < source.length then
      match cond position with
      | none => none
      | some false => some (position, acc)
      | some true =>
        match readAt source position with
        | none => none
        | some c => scanWhileChecked source cond fuel (position + 1) (acc ++ [c])
    else
      some (position, acc)

/-- The method `Lexer::skipWhitespace` with checked reads. -/
def skipWhitespaceChecked (source : List Char) (position : Nat) : Option Nat :=
  (scanWhileChecked source (fun i => (readAt source i).map isspace)
    (source.length - position) position []).map (fun r => r.1)

/-- The method `Lexer::peek` with checked reads. -/
def peekChecked (source : List Char) (position : Nat) : Option Char :=
  if position + 1 < source.length then readAt source (position + 1) else some (Char.ofNat 0)

/-- The method `Lexer::handleComment` with checked reads. -/
def handleCommentChecked (source : List Char) (position : Nat) : Option (Token × Nat) :=
  (readAt source position).bind fun c0 =>
  if c0 == '{' then
    (readAt source position).bind fun c =>
    (scanWhileChecked source (fun i => (readAt source i).map (fun d => d != '}'))
      (source.length - (position + 1)) (position + 1) [c]).bind fun r =>
    if r.1 < source.length then
      (readAt source r.1).bind fun d =>
      some (⟨TokenType.COMMENT, r.2 ++ [d]⟩, r.1 + 1)
    else
      some (⟨TokenType.COMMENT, r.2⟩, r.1)
  else
    (readAt source position).bind fun c1 =>
    (shortAnd (c1 == '(') ((peekChecked source position).map (fun k => k == '*'))).bind
      fun isOpen =>
    if isOpen then
      (readAt source position).bind fun c =>
      (readAt source (position + 1)).bind fun c' =>
      (scanWhileChecked source
        (fun i => (readAt source i).bind fun d =>
          (shortAnd (d == '*') ((peekChecked source i).map (fun k => k == ')'))).map
            (fun b => !b))
        (source.length - (position + 2)) (position + 2) [c, c']).bind fun r =>
      if r.1 < source.length then
        (readAt source r.1).bind fun d =>
        (readAt source (r.1 + 1)).bind fun d' =>
        some (⟨TokenType.COMMENT, r.2 ++ [d, d']⟩, r.1 + 2)
      else
        some (⟨TokenType.COMMENT, r.2⟩, r.1)
    else
      some (⟨TokenType.ERROR, "Unterminated comment".toList⟩, position)

/-- The method `Lexer::handlePreprocessor` with checked reads. -/
def handlePreprocessorChecked (source : List Char) (position : Nat) : Option (Token × Nat) :=
  (scanWhileChecked source (fun i => (readAt source i).map (fun d => !isspace d))
    (source.length - position) position []).bind fun r =>
  some (⟨TokenType.PREPROCESSOR, r.2⟩, r.1)

/-- The method `Lexer::handleStringOrChar` with checked reads. -/
def handleStringOrCharChecked (source : List Char) (position : Nat) : Option (Token × Nat) :=
  (readAt source position).bind fun quoteType =>
  (scanWhileChecked source (fun i => (readAt source i).map (fun d => d != quoteType))
    (source.length - (position + 1)) (position + 1) [quoteType]).bind fun r =>
  if r.1 < source.length then
    (readAt source r.1).bind fun d =>
    if quoteType == Char.ofNat 39 then
      some (⟨TokenType.CHAR, r.2 ++ [d]⟩, r.1 + 1)
    else
      some (⟨TokenType.STRING, r.2 ++ [d]⟩, r.1 + 1)
  else
    some (⟨TokenType.ERROR, "Unterminated string or character literal".toList⟩, r.1)

/-- The method `Lexer::handleNumber` with checked reads. -/
def handleNumberChecked (source : List Char) (position : Nat) : Option (Token × Nat) :=
  (readAt source position).bind fun c0 =>
  if c0 == '$' then
    (readAt source position).bind fun c =>
    (scanWhileChecked source (fun i => (readAt source i).map isxdigit)
      (source.length - (position + 1)) (position + 1) [c]).bind fun r =>
    if isHexNumber (r.2.drop 1) then
      some (⟨TokenType.HEX_NUMBER, r.2⟩, r.1)
    else
      some (⟨TokenType.ERROR, "Invalid hexadecimal number".toList⟩, r.1)
  else
    (scanWhileChecked source
      (fun i => (readAt source i).bind fun d =>
        shortOr (isdigit d) ((readAt source i).map (fun e => e == '.')))
      (source.length - position) position []).bind fun r =>
    if r.2.contains '.' then
      some (⟨TokenType.FLOAT, r.2⟩, r.1)
    else
      some (⟨TokenType.NUMBER, r.2⟩, r.1)

/-- The method `Lexer::handleIdentifierOrKeyword` with checked reads. -/
def handleIdentifierOrKeywordChecked (source : List Char) (position : Nat) :
    Option (Token × Nat) :=
  (scanWhileChecked source
    (fun i => (readAt source i).bind fun d =>
      shortOr (isalnum d) ((readAt source i).map (fun e => e == '_')))
    (source.length - position) position []).bind fun r =>
  if keywords.contains r.2 then
    some (⟨TokenType.KEYWORD, r.2⟩, r.1)
  else
    some (⟨TokenType.IDENTIFIER, r.2⟩, r.1)

/-- The method `Lexer::getNextToken` with checked reads: `none` if the call, or a sub-lexer it
calls, reads the buffer at an index that is not below its length. -/
def getNextTokenChecked (source : List Char) (position : Nat) : Option (Token × Nat) :=
  (skipWhitespaceChecked source position).bind fun position =>
  if position ≥ source.length then
    some (⟨TokenType.END_OF_FILE, []⟩, position)
  else
    (readAt source position).bind fun currentChar =>
    (shortOr (currentChar == '{')
      (shortAnd (currentChar == '(')
        ((peekChecked source position).map (fun k => k == '*')))).bind fun isComment =>
    if isComment then
      handleCommentChecked source position
    else if currentChar == '#' then
      handlePreprocessorChecked source position
    else if currentChar == Char.ofNat 39 || currentChar == Char.ofNat 34 then
      handleStringOrCharChecked source position
    else if isdigit currentChar || currentChar == '$' then
      handleNumberChecked source position
    else if isalpha currentChar || currentChar == '_' then
      handleIdentifierOrKeywordChecked source position
    else if operators.contains currentChar then
      some (⟨TokenType.OPERATOR, [currentChar]⟩, position + 1)
    else if delimiters.contains currentChar then
      some (⟨TokenType.DELIMITER, [currentChar]⟩, position + 1)
    else
      some (⟨TokenType.ERROR, "Unknown character: ".toList ++ [currentChar]⟩, position + 1)

/-- The facts shared by every call that finds a character at `position` (the position reached
after skipping whitespace): the cursor moves forward and stays within the buffer, the token is
not `END_OF_FILE`, its text is not empty, and unless it is an `ERROR` its text is the slice of
the buffer that was consumed. -/
def GoodStep (source : List Char) (position : Nat) (r : Token × Nat) : Prop :=
  position < r.2 ∧ r.2 ≤ source.length ∧ r.1.type ≠ TokenType.END_OF_FILE ∧ r.1.value ≠ [] ∧
    (r.1.type ≠ TokenType.ERROR → r.1.value = slice source position r.2)

end Laboratorna


namespace Laboratorna

/-! ## Slices of the buffer -/

theorem charAt_eq_getElem (source : List Char) (i : Nat) (h : i < source.length) :
    charAt source i = source[i] := by
  simp [charAt, List.getD, h]

theorem slice_self (source : List Char) (a : Nat) : slice source a a = [] := by
  simp [slice]

theorem slice_cons (source : List Char) (a b : Nat) (hab : a < b) (ha : a < source.length) :
    slice source a b = charAt source a :: slice source (a + 1) b := by
  unfold slice
  rw [List.drop_eq_getElem_cons ha, charAt_eq_getElem source a ha]
  obtain ⟨k, rfl⟩ : ∃ k, b = a + 1 + k := ⟨b - (a + 1), by omega⟩
  have h1 : a + 1 + k - a = k + 1 := by omega
  have h2 : a + 1 + k - (a + 1) = k := by omega
  rw [h1, h2, List.take_succ_cons]

theorem slice_snoc (source : List Char) (a b : Nat) (hab : a ≤ b) (hb : b < source.length) :
    slice source a (b + 1) = slice source a b ++ [charAt source b] := by
  unfold slice
  have h1 : b + 1 - a = (b - a) + 1 := by omega
  rw [h1, List.take_succ, charAt_eq_getElem source b hb]
  have h2 : a + (b - a) = b := by omega
  simp [List.getElem?_drop, h2, hb]

theorem slice_append (source : List Char) (a b c : Nat) (hab : a ≤ b) (hbc : b ≤ c) :
    slice source a b ++ slice source b c = slice source a c := by
  unfold slice
  obtain ⟨k, rfl⟩ : ∃ k, b = a + k := ⟨b - a, by omega⟩
  obtain ⟨m, rfl⟩ : ∃ m, c = a + k + m := ⟨c - (a + k), by omega⟩
  have h1 : a + k - a = k := by omega
  have h2 : a + k + m - (a + k) = m := by omega
  have h3 : a + k + m - a = k + m := by omega
  rw [h1, h2, h3, List.take_add, List.drop_drop]

theorem slice_zero_length (source : List Char) : slice source 0 source.length = source := by
  simp [slice]

/-! ## The loop -/

/-- With fuel `source.length - position` or more, the loop runs to its exit condition: the
final position `q` satisfies `position ≤ q`, the accumulated string grew by exactly the
characters in between, the loop condition held at every position passed, and it fails at `q`. -/
theorem scanWhile_spec (source : List Char) (cond : Nat → Bool) :
    ∀ (fuel position : Nat) (acc : List Char), source.length - position ≤ fuel →
      position ≤ (scanWhile source cond fuel position acc).1 ∧
      ((scanWhile source cond fuel position acc).1 ≤ source.length ∨
        (scanWhile source cond fuel position acc).1 = position) ∧
      (scanWhile source cond fuel position acc).2 =
        acc ++ slice source position (scanWhile source cond fuel position acc).1 ∧
      (∀ i, position ≤ i → i < (scanWhile source cond fuel position acc).1 → cond i = true) ∧
      ¬ ((scanWhile source cond fuel position acc).1 < source.length ∧
          cond (scanWhile source cond fuel position acc).1 = true) := by
  intro fuel
  induction fuel with
  | zero =>
    intro position acc h
    have e : scanWhile source cond 0 position acc = (position, acc) := rfl
    rw [e]
    refine ⟨le_refl _, Or.inr rfl, by simp [slice_self], ?_, ?_⟩
    · intro i h1 h2; simp only at h2; omega
    · intro h'; simp only at h'; omega
  | succ n ih =>
    intro position acc h
    by_cases hc : (decide (position < source.length) && cond position) = true
    · have hlt : position < source.length := by
        simp only [Bool.and_eq_true, decide_eq_true_eq] at hc; exact hc.1
      have hcp : cond position = true := by
        simp only [Bool.and_eq_true, decide_eq_true_eq] at hc; exact hc.2
      have e : scanWhile source cond (n + 1) position acc =
          scanWhile source cond n (position + 1) (acc ++ [charAt source position]) := by
        simp only [scanWhile, hc, if_true]
      rw [e]
      obtain ⟨h1, h2, h3, h4, h5⟩ :=
        ih (position + 1) (acc ++ [charAt source position]) (by omega)
      refine ⟨by omega, ?_, ?_, ?_, h5⟩
      · rcases h2 with h2 | h2
        · exact Or.inl h2
        · left; omega
      · rw [h3, slice_cons source position _ (by omega) hlt]; simp
      · intro i hi1 hi2
        rcases Nat.eq_or_lt_of_le hi1 with hi | hi
        · rw [← hi]; exact hcp
        · exact h4 i hi hi2
    · have e : scanWhile source cond (n + 1) position acc = (position, acc) := by
        simp only [scanWhile, hc]; rfl
      rw [e]
      refine ⟨le_refl _, Or.inr rfl, by simp [slice_self], ?_, ?_⟩
      · intro i h1 h2; simp only at h2; omega
      · intro h'
        apply hc
        simp only [Bool.and_eq_true, decide_eq_true_eq]
        exact h'

/-- A loop whose condition only tests the current character consumes the longest prefix of
the rest of the buffer whose characters all pass the test. -/
theorem scanWhile_pred (source : List Char) (pred : Char → Bool) :
    ∀ (fuel position : Nat) (acc : List Char), source.length - position ≤ fuel →
      scanWhile source (fun i => pred (charAt source i)) fuel position acc =
        (position + ((source.drop position).takeWhile pred).length,
          acc ++ (source.drop position).takeWhile pred) := by
  intro fuel
  induction fuel with
  | zero =>
    intro position acc h
    have hd : source.drop position = [] := List.drop_eq_nil_of_le (by omega)
    simp [scanWhile, hd]
  | succ n ih =>
    intro position acc h
    by_cases hlt : position < source.length
    · rw [List.drop_eq_getElem_cons hlt, ← charAt_eq_getElem source position hlt]
      by_cases hp : pred (charAt source position) = true
      · simp only [scanWhile, hlt, hp, decide_True, Bool.and_self, if_true]
        rw [ih (position + 1) _ (by omega), List.takeWhile_cons_of_pos hp]
        simp only [List.length_cons, List.append_assoc, List.singleton_append, Prod.mk.injEq,
          and_true]
        omega
      · simp only [scanWhile, hlt, hp, decide_True, Bool.and_false]
        rw [List.takeWhile_cons_of_neg hp]
        simp
    · have hd : source.drop position = [] := List.drop_eq_nil_of_le (by omega)
      simp [scanWhile, hlt, hd]

/-! ## One call: what each sub-lexer establishes -/

theorem peek_eq (source : List Char) (position : Nat) (c : Char) (hc : c ≠ Char.ofNat 0)
    (h : peek source position = c) :
    position + 1 < source.length ∧ charAt source (position + 1) = c := by
  unfold peek at h
  split at h
  · exact ⟨by assumption, h⟩
  · exact absurd h.symm hc

theorem skipWhitespace_spec (source : List Char) (position : Nat) :
    position ≤ skipWhitespace source position ∧
    (skipWhitespace source position ≤ source.length ∨
      skipWhitespace source position = position) ∧
    (∀ i, position ≤ i → i < skipWhitespace source position →
      isspace (charAt source i) = true) ∧
    (skipWhitespace source position < source.length →
      isspace (charAt source (skipWhitespace source position)) = false) := by
  obtain ⟨h1, h2, -, h4, h5⟩ := scanWhile_spec source (fun i => isspace (charAt source i))
    (source.length - position) position [] (le_refl _)
  refine ⟨h1, h2, h4, ?_⟩
  intro hlt
  by_contra hne
  exact h5 ⟨hlt, by simpa using hne⟩

theorem slice_single (source : List Char) (a : Nat) (ha : a < source.length) :
    slice source a (a + 1) = [charAt source a] := by
  rw [slice_cons source a (a + 1) (by omega) ha, slice_self]

theorem handleComment_good (source : List Char) (position : Nat)
    (hlt : position < source.length)
    (hc : charAt source position = '{' ∨
      (charAt source position = '(' ∧ peek source position = '*')) :
    GoodStep source position (handleComment source position) := by
  by_cases hb : charAt source position = '{'
  · have key := scanWhile_spec source (fun i => charAt source i != '}')
      (source.length - (position + 1)) (position + 1) [charAt source position] (le_refl _)
    rw [handleComment, if_pos (by simpa using hb)]
    simp only
    generalize scanWhile source (fun i => charAt source i != '}')
      (source.length - (position + 1)) (position + 1) [charAt source position] = r at key ⊢
    obtain ⟨h1, h2, h3, -, -⟩ := key
    have hle : r.1 ≤ source.length := by
      rcases h2 with h2 | h2 <;> omega
    have hs : r.2 = slice source position r.1 := by
      rw [h3, slice_cons source position _ (by omega) hlt]; rfl
    split
    · rename_i hr
      refine ⟨by simp only; omega, by simp only; omega, by simp, by simp, ?_⟩
      intro _
      simp only
      rw [hs, slice_snoc source position _ (by omega) hr]
    · refine ⟨by simp only; omega, hle, by simp, ?_, ?_⟩
      · simp only [h3]; simp
      · intro _; exact hs
  · rcases hc with hc | ⟨hc1, hc2⟩
    · exact absurd hc hb
    · obtain ⟨hp1, hp2⟩ := peek_eq source position '*' (by decide) hc2
      have key := scanWhile_spec source
        (fun i => !(charAt source i == '*' && peek source i == ')'))
        (source.length - (position + 2)) (position + 2)
        [charAt source position, charAt source (position + 1)] (le_refl _)
      rw [handleComment, if_neg (by simpa using hb), if_pos (by simp [hc1, hc2])]
      simp only
      generalize scanWhile source (fun i => !(charAt source i == '*' && peek source i == ')'))
        (source.length - (position + 2)) (position + 2)
        [charAt source position, charAt source (position + 1)] = r at key ⊢
      obtain ⟨h1, h2, h3, -, h5⟩ := key
      have hle : r.1 ≤ source.length := by
        rcases h2 with h2 | h2 <;> omega
      have hs : r.2 = slice source position r.1 := by
        rw [h3, slice_cons source position _ (by omega) hlt,
          slice_cons source (position + 1) _ (by omega) hp1]; rfl
      split
      · rename_i hr
        have hx : charAt source r.1 = '*' ∧ peek source r.1 = ')' := by
          by_cases ha : charAt source r.1 = '*'
          · by_cases hb' : peek source r.1 = ')'
            · exact ⟨ha, hb'⟩
            · exact absurd ⟨hr, by simp [ha, hb']⟩ h5
          · exact absurd ⟨hr, by simp [ha]⟩ h5
        obtain ⟨hq1, hq2⟩ := peek_eq source _ ')' (by decide) hx.2
        refine ⟨by simp only; omega, by simp only; omega, by simp, by simp, ?_⟩
        intro _
        simp only
        rw [hs, ← slice_append source position _ _ (by omega) (Nat.le_add_right _ 2),
          slice_cons source _ _ (by omega) hr, slice_single source _ hq1]
      · refine ⟨by simp only; omega, hle, by simp, ?_, ?_⟩
        · simp only [h3]; simp
        · intro _; exact hs

/-! ## Maximal runs -/

theorem maximalRun_length_le (pred : Char → Bool) (source : List Char) (position : Nat) :
    (maximalRun pred source position).length ≤ source.length - position := by
  have h := (List.takeWhile_sublist pred (l := source.drop position)).length_le
  simpa [maximalRun] using h

theorem maximalRun_eq_slice (pred : Char → Bool) (source : List Char) (position : Nat) :
    maximalRun pred source position =
      slice source position (position + (maximalRun pred source position).length) := by
  have h := List.prefix_iff_eq_take.mp (List.takeWhile_prefix pred (l := source.drop position))
  unfold slice
  have e : position + (maximalRun pred source position).length - position =
      (maximalRun pred source position).length := by omega
  rw [e]
  exact h

theorem maximalRun_all (pred : Char → Bool) (source : List Char) (position : Nat) :
    ∀ c ∈ maximalRun pred source position, pred c = true := by
  intro c hc
  exact List.mem_takeWhile_imp hc

theorem maximalRun_pos (pred : Char → Bool) (source : List Char) (position : Nat)
    (hlt : position < source.length) (hp : pred (charAt source position) = true) :
    maximalRun pred source position =
      charAt source position :: maximalRun pred source (position + 1) := by
  unfold maximalRun
  rw [List.drop_eq_getElem_cons hlt, ← charAt_eq_getElem source position hlt,
    List.takeWhile_cons_of_pos hp]

/-- The run stops at the end of the buffer or at a character that fails the test. -/
theorem maximalRun_stop (pred : Char → Bool) (source : List Char) (position : Nat)
    (hlt : position + (maximalRun pred source position).length < source.length) :
    pred (charAt source (position + (maximalRun pred source position).length)) = false := by
  have key : ∀ (l : List Char) (h : (l.takeWhile pred).length < l.length),
      pred (l[(l.takeWhile pred).length]) = false := by
    intro l
    induction l with
    | nil => intro h; simp at h
    | cons a t ih =>
      intro h
      by_cases ha : pred a = true
      · simp only [List.takeWhile_cons_of_pos ha, List.length_cons] at h ⊢
        simpa using ih (by omega)
      · simp only [List.takeWhile_cons_of_neg ha, List.length_nil, List.getElem_cons_zero]
        simpa using ha
  have hl : ((source.drop position).takeWhile pred).length < (source.drop position).length := by
    have : (maximalRun pred source position).length < source.length - position := by omega
    simpa [maximalRun] using this
  have h := key (source.drop position) hl
  rw [charAt_eq_getElem source _ hlt]
  simpa [maximalRun, List.getElem_drop] using h

theorem goodStep_run (pred : Char → Bool) (source : List Char) (position : Nat)
    (ty : TokenType) (hty : ty ≠ TokenType.END_OF_FILE)
    (hlt : position < source.length) (hp : pred (charAt source position) = true) :
    GoodStep source position
      (⟨ty, maximalRun pred source position⟩,
        position + (maximalRun pred source position).length) := by
  have hle := maximalRun_length_le pred source position
  have hpos := maximalRun_pos pred source position hlt hp
  refine ⟨?_, by simp only; omega, hty, ?_, ?_⟩
  · simp only [hpos, List.length_cons]; omega
  · simp only [hpos]; simp
  · intro _; exact maximalRun_eq_slice pred source position

/-! ## Closed forms of the sub-lexers -/

theorem scanWhile_run (source : List Char) (pred : Char → Bool) (position : Nat)
    (acc : List Char) :
    scanWhile source (fun i => pred (charAt source i)) (source.length - position) position acc =
      (position + (maximalRun pred source position).length,
        acc ++ maximalRun pred source position) :=
  scanWhile_pred source pred _ _ _ (le_refl _)

theorem handlePreprocessor_eq (source : List Char) (position : Nat) :
    handlePreprocessor source position =
      (⟨TokenType.PREPROCESSOR, maximalRun (fun c => !isspace c) source position⟩,
        position + (maximalRun (fun c => !isspace c) source position).length) := by
  unfold handlePreprocessor
  rw [scanWhile_run source (fun c => !isspace c)]
  simp

theorem handleIdentifierOrKeyword_eq (source : List Char) (position : Nat) :
    handleIdentifierOrKeyword source position =
      (⟨if keywords.contains (maximalRun (fun c => isalnum c || c == '_') source position)
          then TokenType.KEYWORD else TokenType.IDENTIFIER,
        maximalRun (fun c => isalnum c || c == '_') source position⟩,
        position + (maximalRun (fun c => isalnum c || c == '_') source position).length) := by
  unfold handleIdentifierOrKeyword
  rw [scanWhile_run source (fun c => isalnum c || c == '_')]
  simp only [List.nil_append]
  split <;> simp [*]

theorem handleNumber_decimal_eq (source : List Char) (position : Nat)
    (h : charAt source position ≠ '$') :
    handleNumber source position =
      (⟨if (maximalRun (fun c => isdigit c || c == '.') source position).contains '.'
          then TokenType.FLOAT else TokenType.NUMBER,
        maximalRun (fun c => isdigit c || c == '.') source position⟩,
        position + (maximalRun (fun c => isdigit c || c == '.') source position).length) := by
  rw [handleNumber, if_neg (by simpa using h)]
  rw [scanWhile_run source (fun c => isdigit c || c == '.')]
  simp only [List.nil_append]
  split <;> simp [*]

theorem handleNumber_hex_eq (source : List Char) (position : Nat)
    (h : charAt source position = '$') :
    handleNumber source position =
      (⟨TokenType.HEX_NUMBER, '$' :: maximalRun isxdigit source (position + 1)⟩,
        position + 1 + (maximalRun isxdigit source (position + 1)).length) := by
  rw [handleNumber, if_pos (by simpa using h)]
  rw [scanWhile_run source isxdigit]
  have hall : isHexNumber (maximalRun isxdigit source (position + 1)) = true := by
    unfold isHexNumber maximalRun
    exact List.all_takeWhile
  simp only [h, List.singleton_append, List.drop_succ_cons, List.drop_zero]
  rw [if_pos hall]

theorem handleStringOrChar_eq (source : List Char) (position : Nat) :
    handleStringOrChar source position =
      if position + 1 +
          (maximalRun (fun c => c != charAt source position) source (position + 1)).length
          < source.length then
        (⟨if charAt source position = Char.ofNat 39 then TokenType.CHAR else TokenType.STRING,
          charAt source position ::
            (maximalRun (fun c => c != charAt source position) source (position + 1) ++
              [charAt source position])⟩,
          position + 1 +
            (maximalRun (fun c => c != charAt source position) source (position + 1)).length
            + 1)
      else
        (⟨TokenType.ERROR, "Unterminated string or character literal".toList⟩,
          position + 1 +
            (maximalRun (fun c => c != charAt source position) source (position + 1)).length)
    := by
  unfold handleStringOrChar
  simp only
  rw [scanWhile_run source (fun c => c != charAt source position)]
  simp only [List.singleton_append]
  by_cases hlt : position + 1 +
      (maximalRun (fun c => c != charAt source position) source (position + 1)).length
      < source.length
  · have hstop := maximalRun_stop (fun c => c != charAt source position) source (position + 1) hlt
    have hq : charAt source (position + 1 +
        (maximalRun (fun c => c != charAt source position) source (position + 1)).length) =
        charAt source position := by simpa using hstop
    rw [if_pos hlt, if_pos hlt, hq]
    by_cases hq' : charAt source position = Char.ofNat 39
    · rw [if_pos (by simpa using hq'), if_pos hq']
      simp
    · rw [if_neg (by simpa using hq'), if_neg hq']
      simp
  · rw [if_neg hlt, if_neg hlt]

/-! ## One call of `getNextToken` -/

theorem goodStep_single (source : List Char) (position : Nat) (ty : TokenType)
    (hty : ty ≠ TokenType.END_OF_FILE) (hlt : position < source.length) :
    GoodStep source position (⟨ty, [charAt source position]⟩, position + 1) := by
  refine ⟨by simp, hlt, hty, by simp, ?_⟩
  intro _
  exact (slice_single source position hlt).symm

theorem handleStringOrChar_good (source : List Char) (position : Nat)
    (hlt : position < source.length) :
    GoodStep source position (handleStringOrChar source position) := by
  rw [handleStringOrChar_eq]
  have hle := maximalRun_length_le (fun c => c != charAt source position) source (position + 1)
  split
  · rename_i h
    have hstop := maximalRun_stop (fun c => c != charAt source position) source (position + 1) h
    have hq : charAt source (position + 1 +
        (maximalRun (fun c => c != charAt source position) source (position + 1)).length) =
        charAt source position := by simpa using hstop
    refine ⟨by simp only; omega, by simp only; omega, ?_, by simp, ?_⟩
    · simp only; split <;> simp
    · intro _
      simp only
      rw [slice_cons source position _ (by omega) hlt,
        slice_snoc source (position + 1) _ (by omega) h, hq,
        ← maximalRun_eq_slice]
  · rename_i h
    refine ⟨by simp only; omega, by simp only; omega, by simp, by simp, ?_⟩
    intro hne
    exact absurd rfl hne

theorem handleNumber_good (source : List Char) (position : Nat)
    (hlt : position < source.length)
    (hc : isdigit (charAt source position) = true ∨ charAt source position = '$') :
    GoodStep source position (handleNumber source position) := by
  by_cases hd : charAt source position = '$'
  · rw [handleNumber_hex_eq source position hd]
    have hle := maximalRun_length_le isxdigit source (position + 1)
    refine ⟨by simp only; omega, by simp only; omega, by simp, by simp, ?_⟩
    intro _
    simp only
    rw [slice_cons source position _ (by omega) hlt, hd, ← maximalRun_eq_slice]
  · rw [handleNumber_decimal_eq source position hd]
    rcases hc with hc | hc
    · exact goodStep_run _ source position _ (by split <;> simp) hlt (by simp [hc])
    · exact absurd hc hd

theorem getNextToken_eof (source : List Char) (position : Nat)
    (h : source.length ≤ skipWhitespace source position) :
    getNextToken source position =
      (⟨TokenType.END_OF_FILE, []⟩, skipWhitespace source position) := by
  unfold getNextToken
  simp only
  rw [if_pos h]

theorem getNextToken_good (source : List Char) (position : Nat)
    (h : skipWhitespace source position < source.length) :
    GoodStep source (skipWhitespace source position) (getNextToken source position) := by
  unfold getNextToken
  simp only
  rw [if_neg (by omega)]
  generalize skipWhitespace source position = p0 at h ⊢
  split_ifs with h1 h2 h3 h4 h5 h6 h7
  · exact handleComment_good source p0 h (by simpa using h1)
  · rw [handlePreprocessor_eq]
    refine goodStep_run _ source p0 _ (by simp) h ?_
    rw [eq_of_beq h2]; decide
  · exact handleStringOrChar_good source p0 h
  · exact handleNumber_good source p0 h (by simpa using h4)
  · rw [handleIdentifierOrKeyword_eq]
    refine goodStep_run _ source p0 _ (by split <;> simp) h ?_
    simp only [Bool.or_eq_true, beq_iff_eq] at h5 ⊢
    rcases h5 with h5 | h5
    · left; simp [isalnum, h5]
    · right; exact h5
  · exact goodStep_single source p0 _ (by simp) h
  · exact goodStep_single source p0 _ (by simp) h
  · refine ⟨by simp, h, by simp, by simp, ?_⟩
    intro hne
    exact absurd rfl hne

theorem getNextToken_cursor_ge (source : List Char) (position : Nat) :
    position ≤ (getNextToken source position).2 := by
  have hs := (skipWhitespace_spec source position).1
  by_cases hlt : skipWhitespace source position < source.length
  · have hg := (getNextToken_good source position hlt).1
    omega
  · rw [getNextToken_eof source position (by omega)]
    exact hs

theorem getNextToken_cursor_le (source : List Char) (position : Nat)
    (hp : position ≤ source.length) :
    (getNextToken source position).2 ≤ source.length := by
  by_cases hlt : skipWhitespace source position < source.length
  · exact (getNextToken_good source position hlt).2.1
  · rw [getNextToken_eof source position (by omega)]
    rcases (skipWhitespace_spec source position).2.1 with h | h
    · exact h
    · simp only [h]; exact hp

theorem getNextToken_type_eof_iff (source : List Char) (position : Nat) :
    (getNextToken source position).1.type = TokenType.END_OF_FILE ↔
      source.length ≤ skipWhitespace source position := by
  constructor
  · intro h
    by_contra hlt
    exact (getNextToken_good source position (by omega)).2.2.1 h
  · intro h
    rw [getNextToken_eof source position h]

theorem getNextToken_at_end (source : List Char) (position : Nat)
    (hp : source.length ≤ position) :
    getNextToken source position = (⟨TokenType.END_OF_FILE, []⟩, position) := by
  have hs := skipWhitespace_spec source position
  have e : skipWhitespace source position = position := by
    rcases hs.2.1 with h | h
    · have := hs.1; omega
    · exact h
  have h := getNextToken_eof source position (by omega)
  rw [e] at h
  exact h

theorem cursorAfter_le (source : List Char) (position : Nat) (hp : position ≤ source.length) :
    ∀ n, cursorAfter source position n ≤ source.length := by
  intro n
  induction n with
  | zero => exact hp
  | succ n ih => exact getNextToken_cursor_le source _ ih

/-- While no call has returned `END_OF_FILE`, each call consumed at least one character. -/
theorem cursorAfter_ge_count (source : List Char) (position : Nat) :
    ∀ n, (∀ m, m < n → (nthToken source position m).type ≠ TokenType.END_OF_FILE) →
      position + n ≤ cursorAfter source position n := by
  intro n
  induction n with
  | zero => intro _; exact le_refl _
  | succ n ih =>
    intro h
    have h1 := ih (fun m hm => h m (by omega))
    have h2 : (getNextToken source (cursorAfter source position n)).1.type ≠
        TokenType.END_OF_FILE := h n (by omega)
    have hlt : skipWhitespace source (cursorAfter source position n) < source.length := by
      by_contra hge
      exact h2 ((getNextToken_type_eof_iff source _).mpr (by omega))
    have h3 := (getNextToken_good source _ hlt).1
    have h4 := (skipWhitespace_spec source (cursorAfter source position n)).1
    show position + (n + 1) ≤ (getNextToken source (cursorAfter source position n)).2
    omega

/-! ## Progress, termination, text and cursor (C1 to C7) -/

/-- C1 (progress). For every source buffer and every cursor value `p` (in particular every
`p ≤ length`), a call of `getNextToken` that returns a token whose kind is not `END_OF_FILE`
leaves the cursor strictly greater than `p`. -/
theorem getNextToken_progress (source : List Char) (p : Nat)
    (h : (getNextToken source p).1.type ≠ TokenType.END_OF_FILE) :
    p < (getNextToken source p).2 := by
  have hlt : skipWhitespace source p < source.length := by
    by_contra hge
    exact h ((getNextToken_type_eof_iff source p).mpr (by omega))
  have h1 := (getNextToken_good source p hlt).1
  have h2 := (skipWhitespace_spec source p).1
  omega

theorem getNextToken_progress_witness :
    (getNextToken "  x := 1".toList 0).1.type ≠ TokenType.END_OF_FILE ∧
      0 < (getNextToken "  x := 1".toList 0).2 :=
  ⟨by decide, getNextToken_progress "  x := 1".toList 0 (by decide)⟩

/-- C2 (totality with a bound). For every source buffer, the calls of `getNextToken` made
one after the other from cursor `0` reach `END_OF_FILE`: there is a call number `n`, at most
the length of the buffer, whose token is `END_OF_FILE` while none of the `n` tokens before it
is.  On the empty buffer the first call already returns `END_OF_FILE`. -/
theorem scan_reaches_end_of_file (source : List Char) :
    (∃ n, n ≤ source.length ∧
      (nthToken source 0 n).type = TokenType.END_OF_FILE ∧
      ∀ m, m < n → (nthToken source 0 m).type ≠ TokenType.END_OF_FILE) ∧
    (nthToken [] 0 0).type = TokenType.END_OF_FILE := by
  refine ⟨?_, by decide⟩
  have hex : ∃ n, (nthToken source 0 n).type = TokenType.END_OF_FILE := by
    by_contra hno
    have hall : ∀ m, m < source.length + 1 →
        (nthToken source 0 m).type ≠ TokenType.END_OF_FILE :=
      fun m _ hm => hno ⟨m, hm⟩
    have h1 := cursorAfter_ge_count source 0 (source.length + 1) hall
    have h2 := cursorAfter_le source 0 (Nat.zero_le _) (source.length + 1)
    omega
  refine ⟨Nat.find hex, ?_, Nat.find_spec hex, fun m hm => Nat.find_min hex hm⟩
  have h1 := cursorAfter_ge_count source 0 (Nat.find hex) (fun m hm => Nat.find_min hex hm)
  have h2 := cursorAfter_le source 0 (Nat.zero_le _) (Nat.find hex)
  omega

/-- C3 (idempotent terminal state). For every source buffer and cursor `p`, once the call at
`p` has returned `END_OF_FILE`, every later call (call number `k ≥ 1` of the sequence that
starts at `p`) returns `END_OF_FILE` with empty text and leaves the cursor where it was. -/
theorem end_of_file_idempotent (source : List Char) (p : Nat)
    (h : (getNextToken source p).1.type = TokenType.END_OF_FILE) (k : Nat) (hk : 1 ≤ k) :
    getNextToken source (cursorAfter source p k) =
      (⟨TokenType.END_OF_FILE, []⟩, cursorAfter source p k) := by
  have hge : source.length ≤ skipWhitespace source p :=
    (getNextToken_type_eof_iff source p).mp h
  have hc : ∀ j, source.length ≤ cursorAfter source p (j + 1) := by
    intro j
    induction j with
    | zero =>
      show source.length ≤ (getNextToken source p).2
      rw [getNextToken_eof source p hge]
      exact hge
    | succ j ih =>
      show source.length ≤ (getNextToken source (cursorAfter source p (j + 1))).2
      rw [getNextToken_at_end source _ ih]
      exact ih
  obtain ⟨j, rfl⟩ : ∃ j, k = j + 1 := ⟨k - 1, by omega⟩
  exact getNextToken_at_end source _ (hc j)

theorem end_of_file_idempotent_witness :
    (getNextToken "x  ".toList 1).1.type = TokenType.END_OF_FILE ∧
      getNextToken "x  ".toList (cursorAfter "x  ".toList 1 2) =
        (⟨TokenType.END_OF_FILE, []⟩, cursorAfter "x  ".toList 1 2) :=
  ⟨by decide, end_of_file_idempotent "x  ".toList 1 (by decide) 2 (by decide)⟩

theorem reconstruct_eq_slice (source : List Char) :
    ∀ (fuel position : Nat), position ≤ source.length → source.length - position < fuel →
      (∀ t ∈ tokenize source fuel position, t.type ≠ TokenType.ERROR) →
      reconstruct source fuel position = slice source position source.length := by
  intro fuel
  induction fuel with
  | zero => intro position _ h; omega
  | succ n ih =>
    intro position hp hfuel hno
    have hs := skipWhitespace_spec source position
    by_cases hlt : skipWhitespace source position < source.length
    · have hne : (getNextToken source position).1.type ≠ TokenType.END_OF_FILE :=
        fun h => absurd ((getNextToken_type_eof_iff source position).mp h) (by omega)
      obtain ⟨g1, g2, -, -, g5⟩ := getNextToken_good source position hlt
      have et : tokenize source (n + 1) position =
          (getNextToken source position).1 ::
            tokenize source n (getNextToken source position).2 := by
        simp only [tokenize, hne, if_false]
      have er : reconstruct source (n + 1) position =
          slice source position (skipWhitespace source position) ++
            (getNextToken source position).1.value ++
            reconstruct source n (getNextToken source position).2 := by
        simp only [reconstruct, hne, if_false]
      rw [et] at hno
      have hv := g5 (hno _ (List.mem_cons_self _ _))
      have hrec := ih (getNextToken source position).2 g2 (by omega)
        (fun t ht => hno t (List.mem_cons_of_mem _ ht))
      rw [er, hv, hrec, slice_append source _ _ _ hs.1 (by omega),
        slice_append source _ _ _ (by omega) g2]
    · have he : (getNextToken source position).1.type = TokenType.END_OF_FILE :=
        (getNextToken_type_eof_iff source position).mpr (by omega)
      have er : reconstruct source (n + 1) position =
          slice source position (skipWhitespace source position) := by
        simp only [reconstruct, he, if_true]
      have e : skipWhitespace source position = source.length := by
        rcases hs.2.1 with h | h <;> omega
      rw [er, e]

/-- C4, as stated, fails: on the buffer `@` the only token is the `ERROR` token, whose text is
the diagnostic `Unknown character: @`, so the concatenation is not the buffer. -/
theorem round_trip_fails_on_error :
    reconstruct "@".toList 2 0 = "Unknown character: @".toList ∧
      reconstruct "@".toList 2 0 ≠ "@".toList := by
  decide

/-- C4 (round trip of raw text), amended.  For every source buffer whose scan from cursor `0`
returns no `ERROR` token, concatenating in scan order each run of whitespace skipped by
`skipWhitespace` and the text of each token returned by `getNextToken`, up to `END_OF_FILE`,
yields exactly the original buffer.  Any fuel above the length of the buffer completes the
scan. -/
theorem round_trip_without_error (source : List Char) (fuel : Nat)
    (hfuel : source.length < fuel)
    (hno : ∀ t ∈ tokenize source fuel 0, t.type ≠ TokenType.ERROR) :
    reconstruct source fuel 0 = source := by
  rw [reconstruct_eq_slice source fuel 0 (Nat.zero_le _) (by omega) hno]
  exact slice_zero_length source

theorem round_trip_without_error_witness :
    "ab c".toList.length < 5 ∧
      (∀ t ∈ tokenize "ab c".toList 5 0, t.type ≠ TokenType.ERROR) ∧
      reconstruct "ab c".toList 5 0 = "ab c".toList :=
  ⟨by decide, by decide,
    round_trip_without_error "ab c".toList 5 (by decide) (by decide)⟩

/-- C5 (verbatim lexeme).  For every source buffer and cursor, if `getNextToken` returns a
token whose kind is not `ERROR` (in particular one whose kind is neither `ERROR` nor
`END_OF_FILE`), the text of the token is exactly the slice of the buffer from the position
reached after skipping whitespace up to, and excluding, the cursor after the call: only `ERROR`
tokens carry something else than the characters consumed. -/
theorem token_text_verbatim (source : List Char) (p : Nat)
    (hE : (getNextToken source p).1.type ≠ TokenType.ERROR) :
    (getNextToken source p).1.value =
      slice source (skipWhitespace source p) (getNextToken source p).2 := by
  by_cases hlt : skipWhitespace source p < source.length
  · exact (getNextToken_good source p hlt).2.2.2.2 hE
  · rw [getNextToken_eof source p (by omega)]
    simp [slice_self]

theorem token_text_verbatim_witness :
    (getNextToken " 'a b' x".toList 0).1.type ≠ TokenType.ERROR ∧
      (getNextToken " 'a b' x".toList 0).1.value =
        slice " 'a b' x".toList (skipWhitespace " 'a b' x".toList 0)
          (getNextToken " 'a b' x".toList 0).2 :=
  ⟨by decide, token_text_verbatim " 'a b' x".toList 0 (by decide)⟩

/-- C6 (no empty tokens).  For every source buffer and cursor, the token returned by
`getNextToken` has empty text if and only if its kind is `END_OF_FILE`. -/
theorem token_text_empty_iff (source : List Char) (p : Nat) :
    (getNextToken source p).1.value = [] ↔
      (getNextToken source p).1.type = TokenType.END_OF_FILE := by
  by_cases hlt : skipWhitespace source p < source.length
  · obtain ⟨-, -, g3, g4, -⟩ := getNextToken_good source p hlt
    exact ⟨fun h => absurd h g4, fun h => absurd h g3⟩
  · rw [getNextToken_eof source p (by omega)]
    simp

/-- Instances of C6: a lone `$`, a lone `#`, a lone `{` and a lone digit each give a token
with one character of text. -/
theorem lone_character_tokens :
    getNextToken "$".toList 0 = (⟨TokenType.HEX_NUMBER, "$".toList⟩, 1) ∧
      getNextToken "#".toList 0 = (⟨TokenType.PREPROCESSOR, "#".toList⟩, 1) ∧
      getNextToken ['{'] 0 = (⟨TokenType.COMMENT, ['{']⟩, 1) ∧
      getNextToken "7".toList 0 = (⟨TokenType.NUMBER, "7".toList⟩, 1) := by
  decide

/-- C7 (cursor invariant).  For every source buffer, along the calls of `getNextToken` made
one after the other from cursor `0`, the cursor after each call is greater than or equal to the
cursor before it and does not exceed the length of the buffer plus one. -/
theorem cursor_invariant (source : List Char) (n : Nat) :
    cursorAfter source 0 n ≤ cursorAfter source 0 (n + 1) ∧
      cursorAfter source 0 (n + 1) ≤ source.length + 1 := by
  refine ⟨getNextToken_cursor_ge source _, ?_⟩
  have h := cursorAfter_le source 0 (Nat.zero_le _) (n + 1)
  omega

/-! ## Dispatch -/

theorem ne_of_class_ne (f : Char → Bool) (c d : Char) (hc : f c = true) (hd : f d = false) :
    c ≠ d := by
  intro h
  rw [h, hd] at hc
  exact Bool.false_ne_true hc

theorem not_comment_start (source : List Char) (p0 : Nat)
    (h1 : charAt source p0 ≠ '{') (h2 : charAt source p0 ≠ '(') :
    ¬ ((charAt source p0 == '{' || (charAt source p0 == '(' && peek source p0 == '*')) = true)
    := by
  simp [h1, h2]

theorem getNextToken_quote (source : List Char) (p : Nat)
    (hlt : skipWhitespace source p < source.length)
    (hq : charAt source (skipWhitespace source p) = Char.ofNat 39 ∨
      charAt source (skipWhitespace source p) = Char.ofNat 34) :
    getNextToken source p = handleStringOrChar source (skipWhitespace source p) := by
  unfold getNextToken
  simp only
  rw [if_neg (by omega)]
  rcases hq with hq | hq
  · rw [if_neg (not_comment_start _ _ (by rw [hq]; decide) (by rw [hq]; decide)),
      if_neg (by rw [hq]; decide), if_pos (by rw [hq]; decide)]
  · rw [if_neg (not_comment_start _ _ (by rw [hq]; decide) (by rw [hq]; decide)),
      if_neg (by rw [hq]; decide), if_pos (by rw [hq]; decide)]

theorem getNextToken_digit (source : List Char) (p : Nat)
    (hlt : skipWhitespace source p < source.length)
    (hd : isdigit (charAt source (skipWhitespace source p)) = true) :
    getNextToken source p = handleNumber source (skipWhitespace source p) := by
  have hn : ∀ d, isdigit d = false → charAt source (skipWhitespace source p) ≠ d :=
    fun d => ne_of_class_ne isdigit _ d hd
  unfold getNextToken
  simp only
  rw [if_neg (by omega),
    if_neg (not_comment_start _ _ (hn _ (by decide)) (hn _ (by decide))),
    if_neg (by simpa using hn '#' (by decide)),
    if_neg (by simpa using ⟨hn (Char.ofNat 39) (by decide), hn (Char.ofNat 34) (by decide)⟩),
    if_pos (by simp [hd])]

theorem isalpha_not_isdigit (c : Char) (h : isalpha c = true) : isdigit c = false := by
  unfold isalpha at h
  unfold isdigit
  simp only [Bool.or_eq_true, Bool.and_eq_true, decide_eq_true_eq] at h
  simp only [Bool.and_eq_false_iff, decide_eq_false_iff_not]
  omega

theorem getNextToken_letter (source : List Char) (p : Nat)
    (hlt : skipWhitespace source p < source.length)
    (hl : isalpha (charAt source (skipWhitespace source p)) = true ∨
      charAt source (skipWhitespace source p) = '_') :
    getNextToken source p = handleIdentifierOrKeyword source (skipWhitespace source p) := by
  have hn : ∀ d, (isalpha d || d == '_') = false →
      charAt source (skipWhitespace source p) ≠ d :=
    fun d => ne_of_class_ne (fun c => isalpha c || c == '_') _ d (by simpa using hl)
  have hnd : isdigit (charAt source (skipWhitespace source p)) = false := by
    rcases hl with hl | hl
    · exact isalpha_not_isdigit _ hl
    · rw [hl]; decide
  unfold getNextToken
  simp only
  rw [if_neg (by omega),
    if_neg (not_comment_start _ _ (hn _ (by decide)) (hn _ (by decide))),
    if_neg (by simpa using hn '#' (by decide)),
    if_neg (by simpa using ⟨hn (Char.ofNat 39) (by decide), hn (Char.ofNat 34) (by decide)⟩),
    if_neg (by simpa [hnd] using hn '$' (by decide)),
    if_pos (by simpa using hl)]

theorem maximalRun_pred_at (pred : Char → Bool) (source : List Char) (position j : Nat)
    (hj : j < (maximalRun pred source position).length) :
    pred (charAt source (position + j)) = true := by
  have hle := maximalRun_length_le pred source position
  have hmem : (maximalRun pred source position)[j] ∈ maximalRun pred source position :=
    List.getElem_mem hj
  have hp := maximalRun_all pred source position _ hmem
  have e : (maximalRun pred source position)[j] = charAt source (position + j) := by
    rw [charAt_eq_getElem source (position + j) (by omega)]
    have hpre := List.takeWhile_prefix pred (l := source.drop position)
    have := List.IsPrefix.getElem hpre (n := j) (by simpa [maximalRun] using hj)
    simp only [maximalRun]
    rw [this, List.getElem_drop]
  rw [← e]
  exact hp

/-! ## Quoted literals, identifiers and numbers (C8 to C10) -/

/-- The two outcomes of `handleStringOrChar` at an opening quote: either the quote occurs
again, the literal runs through its first later occurrence and the cursor ends just past it,
or it does not occur again and the call returns the `ERROR` token with the cursor at the end
of the buffer. -/
theorem handleStringOrChar_cases (source : List Char) (p0 : Nat) (hlt : p0 < source.length) :
    (∃ k, p0 < k ∧ k < source.length ∧ charAt source k = charAt source p0 ∧
      (∀ i, p0 < i → i < k → charAt source i ≠ charAt source p0) ∧
      handleStringOrChar source p0 =
        (⟨if charAt source p0 = Char.ofNat 39 then TokenType.CHAR else TokenType.STRING,
          slice source p0 (k + 1)⟩, k + 1)) ∨
    ((∀ i, p0 < i → i < source.length → charAt source i ≠ charAt source p0) ∧
      handleStringOrChar source p0 =
        (⟨TokenType.ERROR, "Unterminated string or character literal".toList⟩,
          source.length)) := by
  have hle := maximalRun_length_le (fun c => c != charAt source p0) source (p0 + 1)
  have hat : ∀ i, p0 < i →
      i < p0 + 1 + (maximalRun (fun c => c != charAt source p0) source (p0 + 1)).length →
      charAt source i ≠ charAt source p0 := by
    intro i h1 h2
    have h := maximalRun_pred_at (fun c => c != charAt source p0) source (p0 + 1)
      (i - (p0 + 1)) (by omega)
    have e : p0 + 1 + (i - (p0 + 1)) = i := by omega
    rw [e] at h
    simpa using h
  by_cases h : p0 + 1 +
      (maximalRun (fun c => c != charAt source p0) source (p0 + 1)).length < source.length
  · left
    have hstop := maximalRun_stop (fun c => c != charAt source p0) source (p0 + 1) h
    have hq : charAt source (p0 + 1 +
        (maximalRun (fun c => c != charAt source p0) source (p0 + 1)).length) =
        charAt source p0 := by simpa using hstop
    refine ⟨_, by omega, h, hq, hat, ?_⟩
    rw [handleStringOrChar_eq, if_pos h]
    rw [slice_cons source p0 _ (by omega) hlt, slice_snoc source (p0 + 1) _ (by omega) h, hq,
      ← maximalRun_eq_slice]
  · right
    have e : p0 + 1 +
        (maximalRun (fun c => c != charAt source p0) source (p0 + 1)).length = source.length := by
      omega
    refine ⟨fun i h1 h2 => hat i h1 (by omega), ?_⟩
    rw [handleStringOrChar_eq, if_neg h, e]

/-- C8 (quoted literals).  When the character at the cursor after whitespace is a quote `q`
(`'` or `"`), `getNextToken` returns the token `ERROR` with text
`Unterminated string or character literal` if and only if `q` does not occur anywhere after
the opening quote; and when `q` does occur there, with `k` the position of its first later
occurrence, the kind is `CHAR` when `q` is `'` and `STRING` when it is `"`, the text is the
slice of the buffer from the opening quote through position `k` inclusive, and the cursor ends
at `k + 1`. -/
theorem quoted_literal (source : List Char) (p : Nat)
    (hlt : skipWhitespace source p < source.length)
    (hq : charAt source (skipWhitespace source p) = Char.ofNat 39 ∨
      charAt source (skipWhitespace source p) = Char.ofNat 34) :
    ((getNextToken source p).1 =
        ⟨TokenType.ERROR, "Unterminated string or character literal".toList⟩ ↔
      ∀ i, skipWhitespace source p < i → i < source.length →
        charAt source i ≠ charAt source (skipWhitespace source p)) ∧
    ((∃ i, skipWhitespace source p < i ∧ i < source.length ∧
        charAt source i = charAt source (skipWhitespace source p)) →
      ∃ k, skipWhitespace source p < k ∧ k < source.length ∧
        charAt source k = charAt source (skipWhitespace source p) ∧
        (∀ i, skipWhitespace source p < i → i < k →
          charAt source i ≠ charAt source (skipWhitespace source p)) ∧
        (getNextToken source p).1.type =
          (if charAt source (skipWhitespace source p) = Char.ofNat 39 then TokenType.CHAR
            else TokenType.STRING) ∧
        (getNextToken source p).1.value = slice source (skipWhitespace source p) (k + 1) ∧
        (getNextToken source p).2 = k + 1) := by
  rw [getNextToken_quote source p hlt hq]
  rcases handleStringOrChar_cases source (skipWhitespace source p) hlt with
    ⟨k, h1, h2, h3, h4, h5⟩ | ⟨h1, h2⟩
  · rw [h5]
    refine ⟨?_, fun _ => ⟨k, h1, h2, h3, h4, rfl, rfl, rfl⟩⟩
    constructor
    · intro h
      have ht := congrArg Token.type h
      simp only at ht
      split at ht <;> simp at ht
    · intro h
      exact absurd h3 (h k h1 h2)
  · rw [h2]
    refine ⟨⟨fun _ => h1, fun _ => rfl⟩, ?_⟩
    rintro ⟨i, hi1, hi2, hi3⟩
    exact absurd hi3 (h1 i hi1 hi2)

theorem quoted_literal_witness :
    (skipWhitespace " 'a\"b' x".toList 0 < " 'a\"b' x".toList.length ∧
      charAt " 'a\"b' x".toList (skipWhitespace " 'a\"b' x".toList 0) = Char.ofNat 39) ∧
    getNextToken " 'a\"b' x".toList 0 = (⟨TokenType.CHAR, "'a\"b'".toList⟩, 6) ∧
    ((getNextToken " 'a\"b' x".toList 0).1 =
        ⟨TokenType.ERROR, "Unterminated string or character literal".toList⟩ ↔
      ∀ i, skipWhitespace " 'a\"b' x".toList 0 < i → i < " 'a\"b' x".toList.length →
        charAt " 'a\"b' x".toList i ≠
          charAt " 'a\"b' x".toList (skipWhitespace " 'a\"b' x".toList 0)) :=
  ⟨by decide, by decide,
    (quoted_literal " 'a\"b' x".toList 0 (by decide) (Or.inl (by decide))).1⟩

/-- The shape of a maximal run: it is the slice up to where it stops, every position in it
passes the test, and the position where it stops is the end of the buffer or fails the test. -/
theorem maximalRun_spec (pred : Char → Bool) (source : List Char) (p0 : Nat) :
    maximalRun pred source p0 =
        slice source p0 (p0 + (maximalRun pred source p0).length) ∧
      (∀ i, p0 ≤ i → i < p0 + (maximalRun pred source p0).length →
        pred (charAt source i) = true) ∧
      (p0 + (maximalRun pred source p0).length < source.length →
        pred (charAt source (p0 + (maximalRun pred source p0).length)) = false) := by
  refine ⟨maximalRun_eq_slice pred source p0, ?_, maximalRun_stop pred source p0⟩
  intro i h1 h2
  have h := maximalRun_pred_at pred source p0 (i - p0) (by omega)
  have e : p0 + (i - p0) = i := by omega
  rw [e] at h
  exact h

/-- C9 (identifier/keyword classification).  When the character at the cursor after whitespace
is an ASCII letter or `_`, `getNextToken` returns a token whose text is the maximal run of
letters, digits and `_` starting there (the slice up to the cursor after the call, every
character of which is a letter, a digit or `_`, and which is followed by the end of the buffer
or by a character that is none of these), and whose kind is `KEYWORD` if and only if that
text is exactly one of the 13 strings `program`, `begin`, `end`, `var`, `integer`, `real`,
`if`, `then`, `else`, `while`, `do`, `for`, `to`, and `IDENTIFIER` otherwise. -/
theorem identifier_or_keyword (source : List Char) (p : Nat)
    (hlt : skipWhitespace source p < source.length)
    (hl : isalpha (charAt source (skipWhitespace source p)) = true ∨
      charAt source (skipWhitespace source p) = '_') :
    (getNextToken source p).1.value =
        slice source (skipWhitespace source p) (getNextToken source p).2 ∧
      skipWhitespace source p < (getNextToken source p).2 ∧
      (∀ i, skipWhitespace source p ≤ i → i < (getNextToken source p).2 →
        (isalnum (charAt source i) || charAt source i == '_') = true) ∧
      ((getNextToken source p).2 < source.length →
        (isalnum (charAt source (getNextToken source p).2) ||
          charAt source (getNextToken source p).2 == '_') = false) ∧
      ((getNextToken source p).1.type = TokenType.KEYWORD ↔
        (getNextToken source p).1.value ∈
          ["program".toList, "begin".toList, "end".toList, "var".toList, "integer".toList,
            "real".toList, "if".toList, "then".toList, "else".toList, "while".toList,
            "do".toList, "for".toList, "to".toList]) ∧
      ((getNextToken source p).1.type ≠ TokenType.KEYWORD →
        (getNextToken source p).1.type = TokenType.IDENTIFIER) := by
  have hg := (getNextToken_good source p hlt).1
  rw [getNextToken_letter source p hlt hl, handleIdentifierOrKeyword_eq] at hg ⊢
  obtain ⟨h1, h2, h3⟩ :=
    maximalRun_spec (fun c => isalnum c || c == '_') source (skipWhitespace source p)
  refine ⟨h1, hg, h2, h3, ?_, ?_⟩
  · simp only
    by_cases hk : keywords.contains
        (maximalRun (fun c => isalnum c || c == '_') source (skipWhitespace source p)) = true
    · rw [if_pos hk]
      simp only [true_iff]
      simpa [keywords] using hk
    · rw [if_neg hk]
      simp only [false_iff, reduceCtorEq]
      simpa [keywords] using hk
  · simp only
    split <;> simp

theorem identifier_or_keyword_witness :
    (skipWhitespace "program".toList 0 < "program".toList.length ∧
      isalpha (charAt "program".toList (skipWhitespace "program".toList 0)) = true) ∧
    (getNextToken "program".toList 0).1 = ⟨TokenType.KEYWORD, "program".toList⟩ ∧
    (getNextToken "Program".toList 0).1 = ⟨TokenType.IDENTIFIER, "Program".toList⟩ ∧
    (getNextToken "programs".toList 0).1 = ⟨TokenType.IDENTIFIER, "programs".toList⟩ ∧
    ((getNextToken "program".toList 0).1.type = TokenType.KEYWORD ↔
        (getNextToken "program".toList 0).1.value ∈
          ["program".toList, "begin".toList, "end".toList, "var".toList, "integer".toList,
            "real".toList, "if".toList, "then".toList, "else".toList, "while".toList,
            "do".toList, "for".toList, "to".toList]) :=
  ⟨by decide, by decide, by decide, by decide,
    (identifier_or_keyword "program".toList 0 (by decide) (Or.inl (by decide))).2.2.2.2.1⟩

/-- C10 (decimal/float classification).  When the character at the cursor after whitespace is
a decimal digit, `getNextToken` returns a token whose text is the maximal run of digits and
`.` starting there (the slice up to the cursor after the call, every character of which is a
digit or `.`, and which is followed by the end of the buffer or by a character that is
neither), with kind `FLOAT` if and only if that text contains at least one `.`, and `NUMBER`
otherwise; the number of dots is not limited. -/
theorem decimal_or_float (source : List Char) (p : Nat)
    (hlt : skipWhitespace source p < source.length)
    (hd : isdigit (charAt source (skipWhitespace source p)) = true) :
    (getNextToken source p).1.value =
        slice source (skipWhitespace source p) (getNextToken source p).2 ∧
      skipWhitespace source p < (getNextToken source p).2 ∧
      (∀ i, skipWhitespace source p ≤ i → i < (getNextToken source p).2 →
        (isdigit (charAt source i) || charAt source i == '.') = true) ∧
      ((getNextToken source p).2 < source.length →
        (isdigit (charAt source (getNextToken source p).2) ||
          charAt source (getNextToken source p).2 == '.') = false) ∧
      ((getNextToken source p).1.type = TokenType.FLOAT ↔
        '.' ∈ (getNextToken source p).1.value) ∧
      ((getNextToken source p).1.type ≠ TokenType.FLOAT →
        (getNextToken source p).1.type = TokenType.NUMBER) := by
  have hne : charAt source (skipWhitespace source p) ≠ '$' :=
    ne_of_class_ne isdigit _ _ hd (by decide)
  have hg := (getNextToken_good source p hlt).1
  rw [getNextToken_digit source p hlt hd, handleNumber_decimal_eq source _ hne] at hg ⊢
  obtain ⟨h1, h2, h3⟩ :=
    maximalRun_spec (fun c => isdigit c || c == '.') source (skipWhitespace source p)
  refine ⟨h1, hg, h2, h3, ?_, ?_⟩
  · simp only
    by_cases hk : (maximalRun (fun c => isdigit c || c == '.') source
        (skipWhitespace source p)).contains '.' = true
    · rw [if_pos hk]
      simp only [true_iff]
      simpa using hk
    · rw [if_neg hk]
      simp only [false_iff, reduceCtorEq]
      simpa using hk
  · simp only
    split <;> simp

theorem decimal_or_float_witness :
    (skipWhitespace "1..2 x".toList 0 < "1..2 x".toList.length ∧
      isdigit (charAt "1..2 x".toList (skipWhitespace "1..2 x".toList 0)) = true) ∧
    (getNextToken "123".toList 0).1 = ⟨TokenType.NUMBER, "123".toList⟩ ∧
    (getNextToken "12.5".toList 0).1 = ⟨TokenType.FLOAT, "12.5".toList⟩ ∧
    (getNextToken "1.".toList 0).1 = ⟨TokenType.FLOAT, "1.".toList⟩ ∧
    (getNextToken "1..2 x".toList 0).1 = ⟨TokenType.FLOAT, "1..2".toList⟩ ∧
    ((getNextToken "1..2 x".toList 0).1.type = TokenType.FLOAT ↔
        '.' ∈ (getNextToken "1..2 x".toList 0).1.value) :=
  ⟨by decide, by decide, by decide, by decide, by decide,
    (decimal_or_float "1..2 x".toList 0 (by decide) (by decide)).2.2.2.2.1⟩

/-! ## Comments (C12, C13) -/

theorem peek_eq_iff (source : List Char) (position : Nat) (c : Char) (hc : c ≠ Char.ofNat 0) :
    peek source position = c ↔
      position + 1 < source.length ∧ charAt source (position + 1) = c := by
  constructor
  · exact peek_eq source position c hc
  · rintro ⟨h1, h2⟩
    unfold peek
    rw [if_pos h1, h2]

/-- The two outcomes of `handleComment` at `{`: either `}` occurs later, the comment runs
through its first later occurrence and the cursor ends just past it, or it does not and the
comment runs to the end of the buffer. -/
theorem handleComment_brace_cases (source : List Char) (p0 : Nat) (hlt : p0 < source.length)
    (hb : charAt source p0 = '{') :
    (∃ k, p0 < k ∧ k < source.length ∧ charAt source k = '}' ∧
      (∀ i, p0 < i → i < k → charAt source i ≠ '}') ∧
      handleComment source p0 = (⟨TokenType.COMMENT, slice source p0 (k + 1)⟩, k + 1)) ∨
    ((∀ i, p0 < i → i < source.length → charAt source i ≠ '}') ∧
      handleComment source p0 =
        (⟨TokenType.COMMENT, slice source p0 source.length⟩, source.length)) := by
  have key := scanWhile_spec source (fun i => charAt source i != '}')
    (source.length - (p0 + 1)) (p0 + 1) [charAt source p0] (le_refl _)
  rw [handleComment, if_pos (by simpa using hb)]
  simp only
  generalize scanWhile source (fun i => charAt source i != '}')
    (source.length - (p0 + 1)) (p0 + 1) [charAt source p0] = r at key ⊢
  obtain ⟨h1, h2, h3, h4, h5⟩ := key
  have hle : r.1 ≤ source.length := by
    rcases h2 with h2 | h2 <;> omega
  have hs : r.2 = slice source p0 r.1 := by
    rw [h3, slice_cons source p0 _ (by omega) hlt]; rfl
  have hpass : ∀ i, p0 < i → i < r.1 → charAt source i ≠ '}' := by
    intro i hi1 hi2
    simpa using h4 i (by omega) hi2
  by_cases hr : r.1 < source.length
  · left
    have hstop : charAt source r.1 = '}' := by
      by_contra hne
      exact h5 ⟨hr, by simpa using hne⟩
    refine ⟨r.1, by omega, hr, hstop, hpass, ?_⟩
    rw [if_pos hr, hs, slice_snoc source p0 _ (by omega) hr]
  · right
    have e : r.1 = source.length := by omega
    refine ⟨fun i hi1 hi2 => hpass i hi1 (by omega), ?_⟩
    rw [if_neg hr, hs, e]

/-- The two outcomes of `handleComment` at `(*`: either `*)` occurs at some position from
`p0 + 2` on, the comment runs through the first such occurrence and the cursor ends just past
it, or there is none and the comment runs to the end of the buffer. -/
theorem handleComment_paren_cases (source : List Char) (p0 : Nat) (hlt : p0 < source.length)
    (hc1 : charAt source p0 = '(') (hc2 : peek source p0 = '*') :
    (∃ k, p0 + 2 ≤ k ∧ k + 1 < source.length ∧ charAt source k = '*' ∧
      charAt source (k + 1) = ')' ∧
      (∀ i, p0 + 2 ≤ i → i < k →
        ¬ (charAt source i = '*' ∧ i + 1 < source.length ∧ charAt source (i + 1) = ')')) ∧
      handleComment source p0 = (⟨TokenType.COMMENT, slice source p0 (k + 2)⟩, k + 2)) ∨
    ((∀ i, p0 + 2 ≤ i → i < source.length →
        ¬ (charAt source i = '*' ∧ i + 1 < source.length ∧ charAt source (i + 1) = ')')) ∧
      handleComment source p0 =
        (⟨TokenType.COMMENT, slice source p0 source.length⟩, source.length)) := by
  obtain ⟨hp1, hp2⟩ := peek_eq source p0 '*' (by decide) hc2
  have hb : charAt source p0 ≠ '{' := by rw [hc1]; decide
  have key := scanWhile_spec source
    (fun i => !(charAt source i == '*' && peek source i == ')'))
    (source.length - (p0 + 2)) (p0 + 2)
    [charAt source p0, charAt source (p0 + 1)] (le_refl _)
  rw [handleComment, if_neg (by simpa using hb), if_pos (by simp [hc1, hc2])]
  simp only
  generalize scanWhile source (fun i => !(charAt source i == '*' && peek source i == ')'))
    (source.length - (p0 + 2)) (p0 + 2)
    [charAt source p0, charAt source (p0 + 1)] = r at key ⊢
  obtain ⟨h1, h2, h3, h4, h5⟩ := key
  have hle : r.1 ≤ source.length := by
    rcases h2 with h2 | h2 <;> omega
  have hs : r.2 = slice source p0 r.1 := by
    rw [h3, slice_cons source p0 _ (by omega) hlt,
      slice_cons source (p0 + 1) _ (by omega) hp1]; rfl
  have hpass : ∀ i, p0 + 2 ≤ i → i < r.1 →
      ¬ (charAt source i = '*' ∧ i + 1 < source.length ∧ charAt source (i + 1) = ')') := by
    intro i hi1 hi2 ⟨ha, hb1, hb2⟩
    have hc := h4 i hi1 hi2
    have hpk : peek source i = ')' := (peek_eq_iff source i ')' (by decide)).mpr ⟨hb1, hb2⟩
    simp [ha, hpk] at hc
  by_cases hr : r.1 < source.length
  · left
    have hx : charAt source r.1 = '*' ∧ peek source r.1 = ')' := by
      by_cases ha : charAt source r.1 = '*'
      · by_cases hb' : peek source r.1 = ')'
        · exact ⟨ha, hb'⟩
        · exact absurd ⟨hr, by simp [ha, hb']⟩ h5
      · exact absurd ⟨hr, by simp [ha]⟩ h5
    obtain ⟨hq1, hq2⟩ := peek_eq source _ ')' (by decide) hx.2
    refine ⟨r.1, h1, hq1, hx.1, hq2, hpass, ?_⟩
    rw [if_pos hr, hs, ← slice_append source p0 r.1 (r.1 + 2) (by omega) (Nat.le_add_right _ 2),
      slice_cons source r.1 _ (by omega) hr, slice_single source _ hq1]
  · right
    have e : r.1 = source.length := by omega
    refine ⟨fun i hi1 hi2 => hpass i hi1 (by omega), ?_⟩
    rw [if_neg hr, hs, e]

theorem handleComment_type (source : List Char) (p0 : Nat) (hlt : p0 < source.length)
    (hc : charAt source p0 = '{' ∨ (charAt source p0 = '(' ∧ peek source p0 = '*')) :
    (handleComment source p0).1.type = TokenType.COMMENT := by
  rcases hc with hc | ⟨hc1, hc2⟩
  · rcases handleComment_brace_cases source p0 hlt hc with ⟨k, -, -, -, -, h⟩ | ⟨-, h⟩ <;>
      rw [h]
  · rcases handleComment_paren_cases source p0 hlt hc1 hc2 with ⟨k, -, -, -, -, -, h⟩ | ⟨-, h⟩ <;>
      rw [h]

/-! ## The branches of `getNextToken` -/

/-- The dispatch of `getNextToken`, branch by branch, with `p0` the position after whitespace
and `c` the character there. -/
theorem getNextToken_cases (source : List Char) (p : Nat) :
    (source.length ≤ skipWhitespace source p ∧
      getNextToken source p = (⟨TokenType.END_OF_FILE, []⟩, skipWhitespace source p)) ∨
    (skipWhitespace source p < source.length ∧
      (charAt source (skipWhitespace source p) = '{' ∨
        (charAt source (skipWhitespace source p) = '(' ∧
          peek source (skipWhitespace source p) = '*')) ∧
      getNextToken source p = handleComment source (skipWhitespace source p)) ∨
    (skipWhitespace source p < source.length ∧
      charAt source (skipWhitespace source p) = '#' ∧
      getNextToken source p = handlePreprocessor source (skipWhitespace source p)) ∨
    (skipWhitespace source p < source.length ∧
      (charAt source (skipWhitespace source p) = Char.ofNat 39 ∨
        charAt source (skipWhitespace source p) = Char.ofNat 34) ∧
      getNextToken source p = handleStringOrChar source (skipWhitespace source p)) ∨
    (skipWhitespace source p < source.length ∧
      (isdigit (charAt source (skipWhitespace source p)) = true ∨
        charAt source (skipWhitespace source p) = '$') ∧
      getNextToken source p = handleNumber source (skipWhitespace source p)) ∨
    (skipWhitespace source p < source.length ∧
      (isalpha (charAt source (skipWhitespace source p)) = true ∨
        charAt source (skipWhitespace source p) = '_') ∧
      getNextToken source p = handleIdentifierOrKeyword source (skipWhitespace source p)) ∨
    (skipWhitespace source p < source.length ∧
      charAt source (skipWhitespace source p) ∈ operators ∧
      getNextToken source p =
        (⟨TokenType.OPERATOR, [charAt source (skipWhitespace source p)]⟩,
          skipWhitespace source p + 1)) ∨
    (skipWhitespace source p < source.length ∧
      charAt source (skipWhitespace source p) ∈ delimiters ∧
      charAt source (skipWhitespace source p) ≠ '{' ∧
      getNextToken source p =
        (⟨TokenType.DELIMITER, [charAt source (skipWhitespace source p)]⟩,
          skipWhitespace source p + 1)) ∨
    (skipWhitespace source p < source.length ∧
      getNextToken source p =
        (⟨TokenType.ERROR,
          "Unknown character: ".toList ++ [charAt source (skipWhitespace source p)]⟩,
          skipWhitespace source p + 1)) := by
  by_cases hlt : skipWhitespace source p < source.length
  · right
    unfold getNextToken
    simp only
    rw [if_neg (by omega)]
    generalize skipWhitespace source p = p0 at hlt ⊢
    split_ifs with h1 h2 h3 h4 h5 h6 h7
    · left; exact ⟨hlt, by simpa using h1, rfl⟩
    · right; left; exact ⟨hlt, by simpa using h2, rfl⟩
    · right; right; left; exact ⟨hlt, by simpa using h3, rfl⟩
    · right; right; right; left; exact ⟨hlt, by simpa using h4, rfl⟩
    · right; right; right; right; left; exact ⟨hlt, by simpa using h5, rfl⟩
    · right; right; right; right; right; left
      exact ⟨hlt, by simpa using h6, rfl⟩
    · right; right; right; right; right; right; left
      refine ⟨hlt, by simpa using h7, ?_, rfl⟩
      intro hb
      exact h1 (by simp [hb])
    · right; right; right; right; right; right; right
      exact ⟨hlt, rfl⟩
  · left
    exact ⟨by omega, getNextToken_eof source p (by omega)⟩

/-- When the character after whitespace starts none of the sub-lexers, `getNextToken` emits a
one-character `OPERATOR` or `DELIMITER`, or the `ERROR` for an unknown character. -/
theorem getNextToken_other (source : List Char) (p : Nat)
    (hlt : skipWhitespace source p < source.length)
    (h1 : charAt source (skipWhitespace source p) ≠ '{')
    (h2 : ¬ (charAt source (skipWhitespace source p) = '(' ∧
      peek source (skipWhitespace source p) = '*'))
    (h3 : charAt source (skipWhitespace source p) ≠ '#')
    (h4 : charAt source (skipWhitespace source p) ≠ Char.ofNat 39)
    (h5 : charAt source (skipWhitespace source p) ≠ Char.ofNat 34)
    (h6 : isdigit (charAt source (skipWhitespace source p)) = false)
    (h7 : charAt source (skipWhitespace source p) ≠ '$')
    (h8 : isalpha (charAt source (skipWhitespace source p)) = false)
    (h9 : charAt source (skipWhitespace source p) ≠ '_') :
    getNextToken source p =
      if operators.contains (charAt source (skipWhitespace source p)) then
        (⟨TokenType.OPERATOR, [charAt source (skipWhitespace source p)]⟩,
          skipWhitespace source p + 1)
      else if delimiters.contains (charAt source (skipWhitespace source p)) then
        (⟨TokenType.DELIMITER, [charAt source (skipWhitespace source p)]⟩,
          skipWhitespace source p + 1)
      else
        (⟨TokenType.ERROR,
          "Unknown character: ".toList ++ [charAt source (skipWhitespace source p)]⟩,
          skipWhitespace source p + 1) := by
  unfold getNextToken
  simp only
  rw [if_neg (by omega), if_neg (by simp only [h1, beq_iff_eq, Bool.or_eq_true, Bool.and_eq_true, false_or]; exact h2),
    if_neg (by simpa using h3), if_neg (by simpa using ⟨h4, h5⟩),
    if_neg (by simpa [h6] using h7), if_neg (by simpa [h8] using h9)]

/-- The only `ERROR` tokens `getNextToken` returns: the one for an unterminated literal, with
the cursor left at the end of the buffer, and the one for an unknown character. -/
theorem getNextToken_error (source : List Char) (p : Nat)
    (h : (getNextToken source p).1.type = TokenType.ERROR) :
    getNextToken source p =
        (⟨TokenType.ERROR, "Unterminated string or character literal".toList⟩,
          source.length) ∨
      getNextToken source p =
        (⟨TokenType.ERROR,
          "Unknown character: ".toList ++ [charAt source (skipWhitespace source p)]⟩,
          skipWhitespace source p + 1) := by
  rcases getNextToken_cases source p with
    ⟨-, e⟩ | ⟨hlt, hc, e⟩ | ⟨-, -, e⟩ | ⟨hlt, -, e⟩ | ⟨-, hc, e⟩ | ⟨-, -, e⟩ | ⟨-, -, e⟩ |
    ⟨-, -, -, e⟩ | ⟨-, e⟩
  · rw [e] at h; simp at h
  · rw [e, handleComment_type source _ hlt hc] at h; simp at h
  · rw [e, handlePreprocessor_eq] at h; simp at h
  · rcases handleStringOrChar_cases source _ hlt with ⟨k, -, -, -, -, e'⟩ | ⟨-, e'⟩
    · rw [e, e'] at h
      simp only at h
      split at h <;> simp at h
    · left; rw [e, e']
  · by_cases hd : charAt source (skipWhitespace source p) = '$'
    · rw [e, handleNumber_hex_eq source _ hd] at h; simp at h
    · rw [e, handleNumber_decimal_eq source _ hd] at h
      simp only at h
      split at h <;> simp at h
  · rw [e, handleIdentifierOrKeyword_eq] at h
    simp only at h
    split at h <;> simp at h
  · rw [e] at h; simp at h
  · rw [e] at h; simp at h
  · right; exact e

theorem getNextToken_dollar (source : List Char) (p : Nat)
    (hlt : skipWhitespace source p < source.length)
    (hd : charAt source (skipWhitespace source p) = '$') :
    getNextToken source p = handleNumber source (skipWhitespace source p) := by
  unfold getNextToken
  simp only
  rw [if_neg (by omega),
    if_neg (not_comment_start _ _ (by rw [hd]; decide) (by rw [hd]; decide)),
    if_neg (by rw [hd]; decide), if_neg (by rw [hd]; decide), if_pos (by simp [hd])]

/-- C11 (hexadecimal literals and the unreachable error).  When the character at the cursor
after whitespace is `$`, `getNextToken` returns kind `HEX_NUMBER` with text the slice of the
buffer from that `$` up to the cursor after the call, where every character after the `$` is a
hexadecimal digit and the run is followed by the end of the buffer or by a character that is
not one (the run may be empty).  For no source buffer and no cursor does `getNextToken` return
the `ERROR` token with text `Invalid hexadecimal number`. -/
theorem hexadecimal_literal (source : List Char) (p : Nat) :
    (skipWhitespace source p < source.length →
      charAt source (skipWhitespace source p) = '$' →
        (getNextToken source p).1.type = TokenType.HEX_NUMBER ∧
        (getNextToken source p).1.value =
          slice source (skipWhitespace source p) (getNextToken source p).2 ∧
        skipWhitespace source p + 1 ≤ (getNextToken source p).2 ∧
        (∀ i, skipWhitespace source p + 1 ≤ i → i < (getNextToken source p).2 →
          isxdigit (charAt source i) = true) ∧
        ((getNextToken source p).2 < source.length →
          isxdigit (charAt source (getNextToken source p).2) = false)) ∧
    (getNextToken source p).1 ≠ ⟨TokenType.ERROR, "Invalid hexadecimal number".toList⟩ := by
  constructor
  · intro hlt hd
    obtain ⟨h1, h2, h3⟩ := maximalRun_spec isxdigit source (skipWhitespace source p + 1)
    rw [getNextToken_dollar source p hlt hd, handleNumber_hex_eq source _ hd]
    refine ⟨rfl, ?_, by simp only; omega, h2, h3⟩
    simp only
    rw [slice_cons source _ _ (by omega) hlt, hd, ← maximalRun_eq_slice]
  · intro h
    have ht : (getNextToken source p).1.type = TokenType.ERROR := by rw [h]
    rcases getNextToken_error source p ht with e | e
    · rw [e] at h
      have hv : "Unterminated string or character literal".toList =
          "Invalid hexadecimal number".toList := congrArg Token.value h
      exact absurd hv (by decide)
    · rw [e] at h
      have hv := congrArg Token.value h
      have hl := congrArg List.length hv
      simp at hl

theorem hexadecimal_literal_witness :
    (skipWhitespace " $1Ag".toList 0 < " $1Ag".toList.length ∧
      charAt " $1Ag".toList (skipWhitespace " $1Ag".toList 0) = '$') ∧
    getNextToken " $1Ag".toList 0 = (⟨TokenType.HEX_NUMBER, "$1A".toList⟩, 4) ∧
    (getNextToken " $1Ag".toList 0).1.type = TokenType.HEX_NUMBER ∧
    (getNextToken " $1Ag".toList 0).1 ≠
      ⟨TokenType.ERROR, "Invalid hexadecimal number".toList⟩ :=
  ⟨by decide, by decide,
    ((hexadecimal_literal " $1Ag".toList 0).1 (by decide) (by decide)).1,
    (hexadecimal_literal " $1Ag".toList 0).2⟩

/-- C12 (brace comments).  When the character at the cursor after whitespace is `{`,
`getNextToken` returns kind `COMMENT`, and either `}` occurs after that `{`, the text is the
slice from the `{` through the first following `}` inclusive and the cursor ends just past that
`}`, or no `}` follows, the text is the slice from the `{` through the end of the buffer and
the cursor ends at the end of the buffer.  The first `}` closes the comment whatever stands in
between, so comments do not nest. -/
theorem brace_comment (source : List Char) (p : Nat)
    (hlt : skipWhitespace source p < source.length)
    (hb : charAt source (skipWhitespace source p) = '{') :
    (getNextToken source p).1.type = TokenType.COMMENT ∧
    ((∃ k, skipWhitespace source p < k ∧ k < source.length ∧ charAt source k = '}' ∧
        (∀ i, skipWhitespace source p < i → i < k → charAt source i ≠ '}') ∧
        (getNextToken source p).1.value = slice source (skipWhitespace source p) (k + 1) ∧
        (getNextToken source p).2 = k + 1) ∨
      ((∀ i, skipWhitespace source p < i → i < source.length → charAt source i ≠ '}') ∧
        (getNextToken source p).1.value =
          slice source (skipWhitespace source p) source.length ∧
        (getNextToken source p).2 = source.length)) := by
  have e : getNextToken source p = handleComment source (skipWhitespace source p) := by
    unfold getNextToken
    simp only
    rw [if_neg (by omega), if_pos (by simp [hb])]
  rw [e]
  rcases handleComment_brace_cases source _ hlt hb with ⟨k, h1, h2, h3, h4, h5⟩ | ⟨h1, h2⟩
  · rw [h5]
    exact ⟨rfl, Or.inl ⟨k, h1, h2, h3, h4, rfl, rfl⟩⟩
  · rw [h2]
    exact ⟨rfl, Or.inr ⟨h1, rfl, rfl⟩⟩

theorem brace_comment_witness :
    (skipWhitespace "\x7b a \x7b b \x7d c \x7d".toList 0 <
        "\x7b a \x7b b \x7d c \x7d".toList.length ∧
      charAt "\x7b a \x7b b \x7d c \x7d".toList
        (skipWhitespace "\x7b a \x7b b \x7d c \x7d".toList 0) = '{') ∧
    getNextToken "\x7b a \x7b b \x7d c \x7d".toList 0 =
      (⟨TokenType.COMMENT, "\x7b a \x7b b \x7d".toList⟩, 9) ∧
    getNextToken "\x7b note".toList 0 = (⟨TokenType.COMMENT, "\x7b note".toList⟩, 6) ∧
    (getNextToken "\x7b a \x7b b \x7d c \x7d".toList 0).1.type = TokenType.COMMENT :=
  ⟨by decide, by decide, by decide,
    (brace_comment "\x7b a \x7b b \x7d c \x7d".toList 0 (by decide) (by decide)).1⟩

/-- C13 (parenthesis-star comments).  When the characters at position `p0`, the cursor after
whitespace, are `(*`, `getNextToken` returns kind `COMMENT`, and either `*)` occurs at some
position `k ≥ p0 + 2`, the text is the slice from `p0` through both characters of the first
such occurrence and the cursor ends just past it, or there is no such occurrence, the text is
the slice from `p0` through the end of the buffer and the cursor ends at the end of the
buffer.  The `*` of the opener is never taken as the `*` of the closer. -/
theorem paren_star_comment (source : List Char) (p : Nat)
    (hlt : skipWhitespace source p < source.length)
    (hc1 : charAt source (skipWhitespace source p) = '(')
    (hc2 : skipWhitespace source p + 1 < source.length ∧
      charAt source (skipWhitespace source p + 1) = '*') :
    (getNextToken source p).1.type = TokenType.COMMENT ∧
    ((∃ k, skipWhitespace source p + 2 ≤ k ∧ k + 1 < source.length ∧
        charAt source k = '*' ∧ charAt source (k + 1) = ')' ∧
        (∀ i, skipWhitespace source p + 2 ≤ i → i < k →
          ¬ (charAt source i = '*' ∧ i + 1 < source.length ∧ charAt source (i + 1) = ')')) ∧
        (getNextToken source p).1.value = slice source (skipWhitespace source p) (k + 2) ∧
        (getNextToken source p).2 = k + 2) ∨
      ((∀ i, skipWhitespace source p + 2 ≤ i → i < source.length →
          ¬ (charAt source i = '*' ∧ i + 1 < source.length ∧ charAt source (i + 1) = ')')) ∧
        (getNextToken source p).1.value =
          slice source (skipWhitespace source p) source.length ∧
        (getNextToken source p).2 = source.length)) := by
  have hpk : peek source (skipWhitespace source p) = '*' :=
    (peek_eq_iff source _ '*' (by decide)).mpr hc2
  have e : getNextToken source p = handleComment source (skipWhitespace source p) := by
    unfold getNextToken
    simp only
    rw [if_neg (by omega), if_pos (by simp [hc1, hpk])]
  rw [e]
  rcases handleComment_paren_cases source _ hlt hc1 hpk with
    ⟨k, h1, h2, h3, h4, h5, h6⟩ | ⟨h1, h2⟩
  · rw [h6]
    exact ⟨rfl, Or.inl ⟨k, h1, h2, h3, h4, h5, rfl, rfl⟩⟩
  · rw [h2]
    exact ⟨rfl, Or.inr ⟨h1, rfl, rfl⟩⟩

theorem paren_star_comment_witness :
    (skipWhitespace "(*) x *)".toList 0 < "(*) x *)".toList.length ∧
      charAt "(*) x *)".toList (skipWhitespace "(*) x *)".toList 0) = '(' ∧
      skipWhitespace "(*) x *)".toList 0 + 1 < "(*) x *)".toList.length ∧
      charAt "(*) x *)".toList (skipWhitespace "(*) x *)".toList 0 + 1) = '*') ∧
    getNextToken "(*) x *)".toList 0 = (⟨TokenType.COMMENT, "(*) x *)".toList⟩, 8) ∧
    getNextToken "(*)".toList 0 = (⟨TokenType.COMMENT, "(*)".toList⟩, 3) ∧
    getNextToken "(* note *) y".toList 0 = (⟨TokenType.COMMENT, "(* note *)".toList⟩, 10) ∧
    (getNextToken "(*) x *)".toList 0).1.type = TokenType.COMMENT :=
  ⟨by decide, by decide, by decide, by decide,
    (paren_star_comment "(*) x *)".toList 0 (by decide) (by decide) (by decide)).1⟩

/-! ## Operators, delimiters, unknown characters, directives (C14 to C17, C20) -/

/-- C14 (operators are single characters, never fused).  When the character `c` at the cursor
after whitespace is one of `+ - * / : = < > . % ^`, `getNextToken` returns kind `OPERATOR`
with text exactly the one character `c` and the cursor ends one past the position of `c`,
whatever character follows. -/
theorem operator_token (source : List Char) (p : Nat)
    (hlt : skipWhitespace source p < source.length)
    (hc : charAt source (skipWhitespace source p) ∈
      ['+', '-', '*', '/', ':', '=', '<', '>', '.', '%', '^']) :
    getNextToken source p =
      (⟨TokenType.OPERATOR, [charAt source (skipWhitespace source p)]⟩,
        skipWhitespace source p + 1) := by
  have key : ∀ c ∈ ['+', '-', '*', '/', ':', '=', '<', '>', '.', '%', '^'],
      c ≠ '{' ∧ c ≠ '(' ∧ c ≠ '#' ∧ c ≠ Char.ofNat 39 ∧ c ≠ Char.ofNat 34 ∧
        isdigit c = false ∧ c ≠ '$' ∧ isalpha c = false ∧ c ≠ '_' ∧
        operators.contains c = true := by
    decide
  obtain ⟨k1, k2, k3, k4, k5, k6, k7, k8, k9, k10⟩ := key _ hc
  rw [getNextToken_other source p hlt k1 (fun h => k2 h.1) k3 k4 k5 k6 k7 k8 k9, if_pos k10]

theorem operator_token_witness :
    (skipWhitespace ":=".toList 0 < ":=".toList.length ∧
      charAt ":=".toList (skipWhitespace ":=".toList 0) ∈
        ['+', '-', '*', '/', ':', '=', '<', '>', '.', '%', '^']) ∧
    getNextToken ":=".toList 1 = (⟨TokenType.OPERATOR, "=".toList⟩, 2) ∧
    getNextToken ":=".toList 2 = (⟨TokenType.END_OF_FILE, []⟩, 2) ∧
    getNextToken ":=".toList 0 = (⟨TokenType.OPERATOR, ":".toList⟩, 1) :=
  ⟨by decide, by decide, by decide, operator_token ":=".toList 0 (by decide) (by decide)⟩

/-- A `DELIMITER` token comes from the delimiter branch, whose character is not `{`. -/
theorem getNextToken_delimiter (source : List Char) (p : Nat)
    (h : (getNextToken source p).1.type = TokenType.DELIMITER) :
    charAt source (skipWhitespace source p) ≠ '{' ∧
      getNextToken source p =
        (⟨TokenType.DELIMITER, [charAt source (skipWhitespace source p)]⟩,
          skipWhitespace source p + 1) := by
  rcases getNextToken_cases source p with
    ⟨-, e⟩ | ⟨hlt, hc, e⟩ | ⟨-, -, e⟩ | ⟨hlt, -, e⟩ | ⟨-, hc, e⟩ | ⟨-, -, e⟩ | ⟨-, -, e⟩ |
    ⟨-, -, hne, e⟩ | ⟨-, e⟩
  · rw [e] at h; simp at h
  · rw [e, handleComment_type source _ hlt hc] at h; simp at h
  · rw [e, handlePreprocessor_eq] at h; simp at h
  · rcases handleStringOrChar_cases source _ hlt with ⟨k, -, -, -, -, e'⟩ | ⟨-, e'⟩
    · rw [e, e'] at h
      simp only at h
      split at h <;> simp at h
    · rw [e, e'] at h; simp at h
  · by_cases hd : charAt source (skipWhitespace source p) = '$'
    · rw [e, handleNumber_hex_eq source _ hd] at h; simp at h
    · rw [e, handleNumber_decimal_eq source _ hd] at h
      simp only at h
      split at h <;> simp at h
  · rw [e, handleIdentifierOrKeyword_eq] at h
    simp only at h
    split at h <;> simp at h
  · rw [e] at h; simp at h
  · exact ⟨hne, e⟩
  · rw [e] at h; simp at h

/-- C15 (delimiters and the lookahead at `(`).  When the character `c` at the cursor after
whitespace is one of `) ; , [ ] }`, or is `(` not immediately followed by `*`, `getNextToken`
returns kind `DELIMITER` with text exactly `c` and the cursor ends one past it.  When `c` is
`(` immediately followed by `*`, or `c` is `{`, the token is a `COMMENT`.  Although `{` is a
member of the delimiter set, no call returns the token `DELIMITER` with text `{`. -/
theorem delimiter_token (source : List Char) (p : Nat) :
    (skipWhitespace source p < source.length →
      (charAt source (skipWhitespace source p) ∈ [')', ';', ',', '[', ']', '}'] ∨
        (charAt source (skipWhitespace source p) = '(' ∧
          ¬ (skipWhitespace source p + 1 < source.length ∧
            charAt source (skipWhitespace source p + 1) = '*'))) →
      getNextToken source p =
        (⟨TokenType.DELIMITER, [charAt source (skipWhitespace source p)]⟩,
          skipWhitespace source p + 1)) ∧
    (skipWhitespace source p < source.length →
      ((charAt source (skipWhitespace source p) = '(' ∧
          skipWhitespace source p + 1 < source.length ∧
          charAt source (skipWhitespace source p + 1) = '*') ∨
        charAt source (skipWhitespace source p) = '{') →
      (getNextToken source p).1.type = TokenType.COMMENT) ∧
    '{' ∈ delimiters ∧
    (getNextToken source p).1 ≠ ⟨TokenType.DELIMITER, ['{']⟩ := by
  refine ⟨?_, ?_, by decide, ?_⟩
  · intro hlt hc
    have key : ∀ c ∈ ['(', ')', ';', ',', '[', ']', '}'],
        c ≠ '{' ∧ c ≠ '#' ∧ c ≠ Char.ofNat 39 ∧ c ≠ Char.ofNat 34 ∧
          isdigit c = false ∧ c ≠ '$' ∧ isalpha c = false ∧ c ≠ '_' ∧
          operators.contains c = false ∧ delimiters.contains c = true := by
      decide
    have hmem : charAt source (skipWhitespace source p) ∈ ['(', ')', ';', ',', '[', ']', '}'] := by
      rcases hc with hc | ⟨hc, -⟩
      · exact List.mem_cons_of_mem _ hc
      · rw [hc]; exact List.mem_cons_self _ _
    have hstar : ¬ (charAt source (skipWhitespace source p) = '(' ∧
        peek source (skipWhitespace source p) = '*') := by
      rintro ⟨h1, h2⟩
      have h3 := (peek_eq_iff source _ '*' (by decide)).mp h2
      rcases hc with hc | ⟨-, hc⟩
      · rw [h1] at hc
        revert hc
        decide
      · exact hc h3
    obtain ⟨k1, k3, k4, k5, k6, k7, k8, k9, k10, k11⟩ := key _ hmem
    rw [getNextToken_other source p hlt k1 hstar k3 k4 k5 k6 k7 k8 k9,
      if_neg (by rw [k10]; exact Bool.false_ne_true), if_pos k11]
  · intro hlt hc
    have hc' : charAt source (skipWhitespace source p) = '{' ∨
        (charAt source (skipWhitespace source p) = '(' ∧
          peek source (skipWhitespace source p) = '*') := by
      rcases hc with ⟨h1, h2⟩ | h
      · exact Or.inr ⟨h1, (peek_eq_iff source _ '*' (by decide)).mpr h2⟩
      · exact Or.inl h
    have e : getNextToken source p = handleComment source (skipWhitespace source p) := by
      unfold getNextToken
      simp only
      rw [if_neg (by omega), if_pos (by simpa using hc')]
    rw [e]
    exact handleComment_type source _ hlt hc'
  · intro h
    have ht : (getNextToken source p).1.type = TokenType.DELIMITER := by rw [h]
    obtain ⟨hne, e⟩ := getNextToken_delimiter source p ht
    rw [e] at h
    have hv : [charAt source (skipWhitespace source p)] = ['{'] := congrArg Token.value h
    exact hne (List.head_eq_of_cons_eq hv)

theorem delimiter_token_witness :
    (skipWhitespace " (x".toList 0 < " (x".toList.length ∧
      charAt " (x".toList (skipWhitespace " (x".toList 0) = '(' ∧
      ¬ (skipWhitespace " (x".toList 0 + 1 < " (x".toList.length ∧
        charAt " (x".toList (skipWhitespace " (x".toList 0 + 1) = '*')) ∧
    getNextToken ['}'] 0 = (⟨TokenType.DELIMITER, ['}']⟩, 1) ∧
    getNextToken ['{'] 0 = (⟨TokenType.COMMENT, ['{']⟩, 1) ∧
    getNextToken "(".toList 0 = (⟨TokenType.DELIMITER, "(".toList⟩, 1) ∧
    getNextToken " (x".toList 0 = (⟨TokenType.DELIMITER, "(".toList⟩, 2) :=
  ⟨by decide, by decide, by decide, by decide,
    (delimiter_token " (x".toList 0).1 (by decide) (Or.inr (by decide))⟩

/-- C16 (unknown characters are reported and skipped).  When the character `c` at the cursor
after whitespace is not `{`, not `(`, not `#`, not a quote, not a digit, not `$`, not a letter,
not `_`, and in neither the operator nor the delimiter set, `getNextToken` returns kind `ERROR`
with text `Unknown character: ` followed by `c`, and the cursor ends one past `c`, so that the
next call scans from the following character. -/
theorem unknown_character (source : List Char) (p : Nat)
    (hlt : skipWhitespace source p < source.length)
    (h1 : charAt source (skipWhitespace source p) ≠ '{')
    (h2 : charAt source (skipWhitespace source p) ≠ '(')
    (h3 : charAt source (skipWhitespace source p) ≠ '#')
    (h4 : charAt source (skipWhitespace source p) ≠ Char.ofNat 39)
    (h5 : charAt source (skipWhitespace source p) ≠ Char.ofNat 34)
    (h6 : isdigit (charAt source (skipWhitespace source p)) = false)
    (h7 : charAt source (skipWhitespace source p) ≠ '$')
    (h8 : isalpha (charAt source (skipWhitespace source p)) = false)
    (h9 : charAt source (skipWhitespace source p) ≠ '_')
    (h10 : charAt source (skipWhitespace source p) ∉ operators)
    (h11 : charAt source (skipWhitespace source p) ∉ delimiters) :
    getNextToken source p =
      (⟨TokenType.ERROR,
        "Unknown character: ".toList ++ [charAt source (skipWhitespace source p)]⟩,
        skipWhitespace source p + 1) := by
  rw [getNextToken_other source p hlt h1 (fun h => h2 h.1) h3 h4 h5 h6 h7 h8 h9,
    if_neg (by simpa using h10), if_neg (by simpa using h11)]

theorem unknown_character_witness :
    getNextToken "@x".toList 1 = (⟨TokenType.IDENTIFIER, "x".toList⟩, 2) ∧
    getNextToken "@x".toList 0 =
      (⟨TokenType.ERROR,
        "Unknown character: ".toList ++ [charAt "@x".toList (skipWhitespace "@x".toList 0)]⟩,
        skipWhitespace "@x".toList 0 + 1) ∧
    getNextToken "@x".toList 0 = (⟨TokenType.ERROR, "Unknown character: @".toList⟩, 1) :=
  ⟨by decide,
    unknown_character "@x".toList 0 (by decide) (by decide) (by decide) (by decide)
      (by decide) (by decide) (by decide) (by decide) (by decide) (by decide) (by decide)
      (by decide),
    by decide⟩

theorem getNextToken_hash (source : List Char) (p : Nat)
    (hlt : skipWhitespace source p < source.length)
    (hc : charAt source (skipWhitespace source p) = '#') :
    getNextToken source p = handlePreprocessor source (skipWhitespace source p) := by
  unfold getNextToken
  simp only
  rw [if_neg (by omega),
    if_neg (not_comment_start _ _ (by rw [hc]; decide) (by rw [hc]; decide)),
    if_pos (by simp [hc])]

/-- C17 (preprocessor directives).  When the character at the cursor after whitespace is `#`,
`getNextToken` returns kind `PREPROCESSOR` whose text is the maximal run of non-whitespace
characters starting at that `#`: the slice up to the cursor after the call, no character of
which is whitespace, and the cursor, which stays within the buffer, ends either at the end of
the buffer or at a whitespace character, the first one after the `#`. -/
theorem preprocessor_directive (source : List Char) (p : Nat)
    (hlt : skipWhitespace source p < source.length)
    (hc : charAt source (skipWhitespace source p) = '#') :
    (getNextToken source p).1.type = TokenType.PREPROCESSOR ∧
      (getNextToken source p).1.value =
        slice source (skipWhitespace source p) (getNextToken source p).2 ∧
      skipWhitespace source p < (getNextToken source p).2 ∧
      (getNextToken source p).2 ≤ source.length ∧
      (∀ i, skipWhitespace source p ≤ i → i < (getNextToken source p).2 →
        isspace (charAt source i) = false) ∧
      ((getNextToken source p).2 = source.length ∨
        ((getNextToken source p).2 < source.length ∧
          isspace (charAt source (getNextToken source p).2) = true)) := by
  have hg := (getNextToken_good source p hlt).1
  have hle := (getNextToken_good source p hlt).2.1
  rw [getNextToken_hash source p hlt hc, handlePreprocessor_eq] at hg hle ⊢
  obtain ⟨h1, h2, h3⟩ :=
    maximalRun_spec (fun c => !isspace c) source (skipWhitespace source p)
  refine ⟨rfl, h1, hg, hle, ?_, ?_⟩
  · intro i hi1 hi2
    simpa using h2 i hi1 hi2
  · rcases Nat.eq_or_lt_of_le hle with he | hq
    · exact Or.inl he
    · exact Or.inr ⟨hq, by simpa using h3 hq⟩

theorem preprocessor_directive_witness :
    (skipWhitespace " #in'c\"1 x".toList 0 < " #in'c\"1 x".toList.length ∧
      charAt " #in'c\"1 x".toList (skipWhitespace " #in'c\"1 x".toList 0) = '#') ∧
    getNextToken " #in'c\"1 x".toList 0 = (⟨TokenType.PREPROCESSOR, "#in'c\"1".toList⟩, 8) ∧
    getNextToken "#include".toList 0 = (⟨TokenType.PREPROCESSOR, "#include".toList⟩, 8) ∧
    getNextToken "#ab".toList 0 = (⟨TokenType.PREPROCESSOR, "#ab".toList⟩, 3) ∧
    (getNextToken " #in'c\"1 x".toList 0).1.type = TokenType.PREPROCESSOR ∧
    (getNextToken " #in'c\"1 x".toList 0).2 ≤ " #in'c\"1 x".toList.length :=
  ⟨by decide, by decide, by decide, by decide,
    (preprocessor_directive " #in'c\"1 x".toList 0 (by decide) (by decide)).1,
    (preprocessor_directive " #in'c\"1 x".toList 0 (by decide) (by decide)).2.2.2.1⟩

/-- C20 (an unterminated quoted literal swallows the rest of the input).  For every source
buffer and cursor, whenever `getNextToken` returns the `ERROR` token with text
`Unterminated string or character literal`, the cursor after that call equals the length of
the buffer and the next call returns `END_OF_FILE`, with empty text and without moving the
cursor. -/
theorem unterminated_literal_swallows_rest (source : List Char) (p : Nat)
    (h : (getNextToken source p).1 =
      ⟨TokenType.ERROR, "Unterminated string or character literal".toList⟩) :
    (getNextToken source p).2 = source.length ∧
      getNextToken source (getNextToken source p).2 =
        (⟨TokenType.END_OF_FILE, []⟩, (getNextToken source p).2) := by
  have ht : (getNextToken source p).1.type = TokenType.ERROR := by rw [h]
  rcases getNextToken_error source p ht with e | e
  · have hq : (getNextToken source p).2 = source.length := by rw [e]
    rw [hq]
    exact ⟨rfl, getNextToken_at_end source _ (le_refl _)⟩
  · rw [e] at h
    have hv : "Unknown character: ".toList ++ [charAt source (skipWhitespace source p)] =
        "Unterminated string or character literal".toList := congrArg Token.value h
    have hl := congrArg List.length hv
    simp at hl

theorem unterminated_literal_swallows_rest_witness :
    (getNextToken "'abc x".toList 0).1 =
        ⟨TokenType.ERROR, "Unterminated string or character literal".toList⟩ ∧
    tokenize "'abc x".toList 7 0 =
        [⟨TokenType.ERROR, "Unterminated string or character literal".toList⟩] ∧
    ((getNextToken "'abc x".toList 0).2 = "'abc x".toList.length ∧
      getNextToken "'abc x".toList (getNextToken "'abc x".toList 0).2 =
        (⟨TokenType.END_OF_FILE, []⟩, (getNextToken "'abc x".toList 0).2)) :=
  ⟨by decide, by decide, unterminated_literal_swallows_rest "'abc x".toList 0 (by decide)⟩

/-! ## The report written by `main` (C18) -/

theorem cursorAfter_shift (source : List Char) (position : Nat) :
    ∀ m, cursorAfter source position (m + 1) =
      cursorAfter source (getNextToken source position).2 m := by
  intro m
  induction m with
  | zero => rfl
  | succ m ih =>
    show (getNextToken source (cursorAfter source position (m + 1))).2 =
      (getNextToken source (cursorAfter source (getNextToken source position).2 m)).2
    rw [ih]

theorem nthToken_shift (source : List Char) (position m : Nat) :
    nthToken source position (m + 1) =
      nthToken source (getNextToken source position).2 m := by
  unfold nthToken
  rw [cursorAfter_shift]

/-- With enough fuel, the tokens collected by the loop are the tokens of the calls before the
first one that returns `END_OF_FILE`. -/
theorem tokenize_eq_map (source : List Char) :
    ∀ (n fuel position : Nat), n ≤ fuel →
      (nthToken source position n).type = TokenType.END_OF_FILE →
      (∀ m, m < n → (nthToken source position m).type ≠ TokenType.END_OF_FILE) →
      tokenize source fuel position = (List.range n).map (nthToken source position) := by
  intro n
  induction n with
  | zero =>
    intro fuel position _ h0 _
    have h0' : (getNextToken source position).1.type = TokenType.END_OF_FILE := h0
    cases fuel with
    | zero => rfl
    | succ f => simp [tokenize, h0']
  | succ n ih =>
    intro fuel position hf hn hmin
    obtain ⟨f, rfl⟩ : ∃ f, fuel = f + 1 := ⟨fuel - 1, by omega⟩
    have h0 : (getNextToken source position).1.type ≠ TokenType.END_OF_FILE := hmin 0 (by omega)
    have hrec := ih f (getNextToken source position).2 (by omega)
      (by rw [← nthToken_shift]; exact hn)
      (fun m hm => by rw [← nthToken_shift]; exact hmin (m + 1) (by omega))
    have et : tokenize source (f + 1) position =
        (getNextToken source position).1 ::
          tokenize source f (getNextToken source position).2 := by
      simp only [tokenize, h0, if_false]
    rw [et, hrec, List.range_succ_eq_map, List.map_cons, List.map_map]
    congr 1
    apply List.map_congr_left
    intro m _
    exact (nthToken_shift source position m).symm

/-- The output loop writes one line per collected token. -/
theorem outputLoop_eq (source : List Char) :
    ∀ (fuel position : Nat) (output : List Char),
      outputLoop source fuel (getNextToken source position).1
          (getNextToken source position).2 output =
        output ++ (tokenize source fuel position).flatMap (fun t =>
          "Token: ".toList ++ t.value ++ ", Type: ".toList ++ tokenTypeToString t.type ++
            [Char.ofNat 10]) := by
  intro fuel
  induction fuel with
  | zero => intro position output; simp [outputLoop, tokenize]
  | succ f ih =>
    intro position output
    by_cases h0 : (getNextToken source position).1.type = TokenType.END_OF_FILE
    · simp [outputLoop, tokenize, h0]
    · have et : tokenize source (f + 1) position =
          (getNextToken source position).1 ::
            tokenize source f (getNextToken source position).2 := by
        simp only [tokenize, h0, if_false]
      have eo : outputLoop source (f + 1) (getNextToken source position).1
          (getNextToken source position).2 output =
          outputLoop source f (getNextToken source (getNextToken source position).2).1
            (getNextToken source (getNextToken source position).2).2
            (output ++ "Token: ".toList ++ (getNextToken source position).1.value ++
              ", Type: ".toList ++ tokenTypeToString (getNextToken source position).1.type ++
              [Char.ofNat 10]) := by
        simp only [outputLoop, ne_eq, h0, not_false_eq_true, if_true]
      rw [eo, ih, et, List.flatMap_cons]
      simp only [List.append_assoc]

theorem first_end_of_file (source : List Char) :
    ∃ n, n ≤ source.length ∧ (nthToken source 0 n).type = TokenType.END_OF_FILE ∧
      ∀ m, m < n → (nthToken source 0 m).type ≠ TokenType.END_OF_FILE := by
  have hex : ∃ n, (nthToken source 0 n).type = TokenType.END_OF_FILE := by
    by_contra hno
    have h1 := cursorAfter_ge_count source 0 (source.length + 1)
      (fun m _ hm => hno ⟨m, hm⟩)
    have h2 := cursorAfter_le source 0 (Nat.zero_le _) (source.length + 1)
    omega
  refine ⟨Nat.find hex, ?_, Nat.find_spec hex, fun m hm => Nat.find_min hex hm⟩
  have h1 := cursorAfter_ge_count source 0 (Nat.find hex) (fun m hm => Nat.find_min hex hm)
  have h2 := cursorAfter_le source 0 (Nat.zero_le _) (Nat.find hex)
  omega

theorem tokenTypeToString_injective (a b : TokenType)
    (h : tokenTypeToString a = tokenTypeToString b) : a = b := by
  cases a <;> cases b <;> first | rfl | exact absurd h (by decide)

/-- The report for the buffer `x := $1F;`. -/
theorem mainOutput_example :
    mainOutput "x := $1F;".toList =
      ("Token: x, Type: IDENTIFIER\n" ++ "Token: :, Type: OPERATOR\n" ++
        "Token: =, Type: OPERATOR\n" ++ "Token: $1F, Type: HEX_NUMBER\n" ++
        "Token: ;, Type: DELIMITER\n").toList := by
  decide

/-- C18 (report format).  For every source buffer, with `n` the number of the first call from
cursor `0` that returns `END_OF_FILE`, the text written by the output loop of `main` is the
concatenation, in scan order, over exactly the `n` tokens returned before it, of
`Token: ` + text + `, Type: ` + `tokenTypeToString kind` + newline; none of these lines has
`EOF` as its type name; and `tokenTypeToString` maps the kinds to the pairwise distinct names
`KEYWORD`, `IDENTIFIER`, `NUMBER`, `HEX_NUMBER`, `FLOAT`, `STRING`, `CHAR`, `PREPROCESSOR`,
`COMMENT`, `OPERATOR`, `DELIMITER`, `UNKNOWN`, `ERROR`. -/
theorem report_format (source : List Char) :
    (∃ n, (nthToken source 0 n).type = TokenType.END_OF_FILE ∧
      (∀ m, m < n → (nthToken source 0 m).type ≠ TokenType.END_OF_FILE) ∧
      mainOutput source =
        (List.range n).flatMap (fun m =>
          "Token: ".toList ++ (nthToken source 0 m).value ++ ", Type: ".toList ++
            tokenTypeToString (nthToken source 0 m).type ++ [Char.ofNat 10]) ∧
      (∀ m, m < n → tokenTypeToString (nthToken source 0 m).type ≠ "EOF".toList)) ∧
    [TokenType.KEYWORD, TokenType.IDENTIFIER, TokenType.NUMBER, TokenType.HEX_NUMBER,
        TokenType.FLOAT, TokenType.STRING, TokenType.CHAR, TokenType.PREPROCESSOR,
        TokenType.COMMENT, TokenType.OPERATOR, TokenType.DELIMITER, TokenType.UNKNOWN,
        TokenType.ERROR].map tokenTypeToString =
      ["KEYWORD".toList, "IDENTIFIER".toList, "NUMBER".toList, "HEX_NUMBER".toList,
        "FLOAT".toList, "STRING".toList, "CHAR".toList, "PREPROCESSOR".toList,
        "COMMENT".toList, "OPERATOR".toList, "DELIMITER".toList, "UNKNOWN".toList,
        "ERROR".toList] ∧
    (∀ a b, tokenTypeToString a = tokenTypeToString b → a = b) := by
  refine ⟨?_, by decide, tokenTypeToString_injective⟩
  obtain ⟨n, hle, hn, hmin⟩ := first_end_of_file source
  refine ⟨n, hn, hmin, ?_, ?_⟩
  · unfold mainOutput
    simp only
    rw [outputLoop_eq, tokenize_eq_map source n _ 0 (by omega) hn hmin, List.nil_append,
      List.flatMap_def, List.flatMap_def, List.map_map]
    rfl
  · intro m hm h
    exact hmin m hm (tokenTypeToString_injective _ _ h)

/-! ## In-bounds reads (C19) -/

theorem readAt_lt (source : List Char) (i : Nat) (h : i < source.length) :
    readAt source i = some (charAt source i) := by
  rw [charAt_eq_getElem source i h]
  simp [readAt, h]

theorem readAt_ge (source : List Char) (i : Nat) (h : source.length ≤ i) :
    readAt source i = none := by
  simp [readAt, h]

theorem peekChecked_eq (source : List Char) (position : Nat) :
    peekChecked source position = some (peek source position) := by
  unfold peekChecked peek
  split
  · rename_i h
    exact readAt_lt source _ h
  · rfl

/-- A checked loop whose condition succeeds at every position of the buffer never fails, and
computes what the unchecked loop computes. -/
theorem scanWhileChecked_eq (source : List Char) (condC : Nat → Option Bool)
    (cond : Nat → Bool) (hcond : ∀ i, i < source.length → condC i = some (cond i)) :
    ∀ (fuel position : Nat) (acc : List Char),
      scanWhileChecked source condC fuel position acc =
        some (scanWhile source cond fuel position acc) := by
  intro fuel
  induction fuel with
  | zero => intro position acc; rfl
  | succ n ih =>
    intro position acc
    by_cases hlt : position < source.length
    · by_cases hc : cond position = true
      · simp only [scanWhileChecked, scanWhile, hlt, if_true, hcond position hlt, hc,
          readAt_lt source position hlt, decide_True, Bool.and_self]
        exact ih _ _
      · have hc' : cond position = false := by simpa using hc
        simp [scanWhileChecked, scanWhile, hlt, hcond position hlt, hc']
    · simp [scanWhileChecked, scanWhile, hlt]

theorem skipWhitespaceChecked_eq (source : List Char) (position : Nat) :
    skipWhitespaceChecked source position = some (skipWhitespace source position) := by
  unfold skipWhitespaceChecked skipWhitespace
  rw [scanWhileChecked_eq source _ (fun i => isspace (charAt source i))
    (fun i hi => by simp [readAt_lt source i hi])]
  rfl

theorem handlePreprocessorChecked_eq (source : List Char) (position : Nat) :
    handlePreprocessorChecked source position = some (handlePreprocessor source position) := by
  unfold handlePreprocessorChecked handlePreprocessor
  rw [scanWhileChecked_eq source _ (fun i => !isspace (charAt source i))
    (fun i hi => by simp [readAt_lt source i hi])]
  rfl

theorem handleIdentifierOrKeywordChecked_eq (source : List Char) (position : Nat) :
    handleIdentifierOrKeywordChecked source position =
      some (handleIdentifierOrKeyword source position) := by
  unfold handleIdentifierOrKeywordChecked handleIdentifierOrKeyword
  rw [scanWhileChecked_eq source _ (fun i => isalnum (charAt source i) || charAt source i == '_')
    (fun i hi => by
      simp only [readAt_lt source i hi, Option.some_bind, shortOr, Option.map_some']
      cases isalnum (charAt source i) <;> simp)]
  simp only [Option.some_bind]
  split <;> rfl

theorem handleNumberChecked_eq (source : List Char) (position : Nat)
    (hlt : position < source.length) :
    handleNumberChecked source position = some (handleNumber source position) := by
  unfold handleNumberChecked handleNumber
  simp only [readAt_lt source position hlt, Option.some_bind]
  by_cases hd : (charAt source position == '$') = true
  · rw [if_pos hd, if_pos hd]
    rw [scanWhileChecked_eq source _ (fun i => isxdigit (charAt source i))
      (fun i hi => by simp [readAt_lt source i hi])]
    simp only [Option.some_bind]
    split <;> rfl
  · rw [if_neg hd, if_neg hd]
    rw [scanWhileChecked_eq source _ (fun i => isdigit (charAt source i) || charAt source i == '.')
      (fun i hi => by
        simp only [readAt_lt source i hi, Option.some_bind, shortOr, Option.map_some']
        cases isdigit (charAt source i) <;> simp)]
    simp only [Option.some_bind]
    split <;> rfl

theorem handleStringOrCharChecked_eq (source : List Char) (position : Nat)
    (hlt : position < source.length) :
    handleStringOrCharChecked source position = some (handleStringOrChar source position) := by
  unfold handleStringOrCharChecked handleStringOrChar
  simp only [readAt_lt source position hlt, Option.some_bind]
  rw [scanWhileChecked_eq source _ (fun i => charAt source i != charAt source position)
    (fun i hi => by simp [readAt_lt source i hi])]
  simp only [Option.some_bind]
  split
  · rename_i hr
    simp only [readAt_lt source _ hr, Option.some_bind]
    split <;> rfl
  · rfl

theorem handleCommentChecked_eq (source : List Char) (position : Nat)
    (hlt : position < source.length)
    (hc : charAt source position = '{' ∨
      (charAt source position = '(' ∧ peek source position = '*')) :
    handleCommentChecked source position = some (handleComment source position) := by
  unfold handleCommentChecked handleComment
  simp only [readAt_lt source position hlt, Option.some_bind]
  by_cases hb : (charAt source position == '{') = true
  · rw [if_pos hb, if_pos hb]
    rw [scanWhileChecked_eq source _ (fun i => charAt source i != '}')
      (fun i hi => by simp [readAt_lt source i hi])]
    simp only [Option.some_bind]
    split
    · rename_i hr
      simp only [readAt_lt source _ hr, Option.some_bind]
    · rfl
  · rcases hc with hc | ⟨hc1, hc2⟩
    · exact absurd (by simpa using hc) hb
    · obtain ⟨hp1, -⟩ := peek_eq source position '*' (by decide) hc2
      have key := scanWhile_spec source
        (fun i => !(charAt source i == '*' && peek source i == ')'))
        (source.length - (position + 2)) (position + 2)
        [charAt source position, charAt source (position + 1)] (le_refl _)
      rw [if_neg hb, if_neg hb]
      simp only [peekChecked_eq, Option.map_some', shortAnd, hc1, beq_self_eq_true, if_true,
        hc2, Option.some_bind, readAt_lt source (position + 1) hp1, Bool.and_self]
      rw [scanWhileChecked_eq source _
        (fun i => !(charAt source i == '*' && peek source i == ')'))
        (fun i hi => by
          simp only [readAt_lt source i hi, Option.some_bind, peekChecked_eq, Option.map_some',
            shortAnd]
          by_cases hs : (charAt source i == '*') = true
          · simp [hs]
          · simp [hs])]
      simp only [Option.some_bind]
      rw [hc1] at key
      generalize scanWhile source (fun i => !(charAt source i == '*' && peek source i == ')'))
        (source.length - (position + 2)) (position + 2)
        ['(', charAt source (position + 1)] = r at key ⊢
      obtain ⟨-, -, -, -, h5⟩ := key
      split
      · rename_i hr
        have hx : peek source r.1 = ')' := by
          by_contra hne
          exact h5 ⟨hr, by simp [hne]⟩
        obtain ⟨hq1, -⟩ := peek_eq source _ ')' (by decide) hx
        simp only [readAt_lt source _ hr, readAt_lt source _ hq1, Option.some_bind]
      · rfl

theorem getNextTokenChecked_eq (source : List Char) (position : Nat) :
    getNextTokenChecked source position = some (getNextToken source position) := by
  unfold getNextTokenChecked getNextToken
  simp only [skipWhitespaceChecked_eq, Option.some_bind]
  generalize skipWhitespace source position = p0
  by_cases hge : p0 ≥ source.length
  · rw [if_pos hge, if_pos hge]
  · have hlt : p0 < source.length := by omega
    rw [if_neg hge, if_neg hge]
    simp only [readAt_lt source p0 hlt, Option.some_bind, peekChecked_eq, Option.map_some']
    have hcond : shortOr (charAt source p0 == '{')
        (shortAnd (charAt source p0 == '(') (some (peek source p0 == '*'))) =
        some (charAt source p0 == '{' || (charAt source p0 == '(' && peek source p0 == '*')) := by
      unfold shortOr shortAnd
      by_cases h1 : (charAt source p0 == '{') = true
      · simp [h1]
      · by_cases h2 : (charAt source p0 == '(') = true
        · simp [h1, h2]
        · simp [h1, h2]
    rw [hcond]
    simp only [Option.some_bind]
    split_ifs with h1 h2 h3 h4 h5 h6 h7
    · exact handleCommentChecked_eq source p0 hlt (by simpa using h1)
    · exact handlePreprocessorChecked_eq source p0
    · exact handleStringOrCharChecked_eq source p0 hlt
    · exact handleNumberChecked_eq source p0 hlt
    · exact handleIdentifierOrKeywordChecked_eq source p0
    · rfl
    · rfl
    · rfl

/-- The checked sub-lexers do fail when called where they would read past the buffer: the
checks are not vacuous. -/
theorem checked_read_fails_out_of_range :
    handleNumberChecked "12".toList 2 = none ∧
      handleStringOrCharChecked [] 0 = none ∧
      handleCommentChecked "(*".toList 2 = none := by
  decide

/-- C19 (in-bounds reads).  For every source buffer and every cursor `p ≤ length`, the call of
`getNextToken` with every buffer read checked does not fail, that is, every read `source[i]`
made by `getNextToken` and its sub-lexers has `i < length`; it returns what `getNextToken`
returns, and the cursor after the call is at most the length of the buffer. -/
theorem reads_in_bounds (source : List Char) (p : Nat) (hp : p ≤ source.length) :
    getNextTokenChecked source p = some (getNextToken source p) ∧
      (getNextToken source p).2 ≤ source.length :=
  ⟨getNextTokenChecked_eq source p, getNextToken_cursor_le source p hp⟩

theorem reads_in_bounds_witness :
    3 ≤ " x (*) y".toList.length ∧
      getNextTokenChecked " x (*) y".toList 3 =
        some (⟨TokenType.COMMENT, "(*) y".toList⟩, 8) ∧
      (getNextTokenChecked " x (*) y".toList 3 = some (getNextToken " x (*) y".toList 3) ∧
        (getNextToken " x (*) y".toList 3).2 ≤ " x (*) y".toList.length) :=
  ⟨by decide, by decide, reads_in_bounds " x (*) y".toList 3 (by decide)⟩

end Laboratorna
